import Mathlib

/-!
Verification of the saas-radar signal-consolidation core.

This file gives a shallow embedding, in Lean, of the core pipeline of the
repository (`scripts/lib/dedupe.py`, `scripts/lib/idea_cluster.py`,
`scripts/lib/score.py`) and proves or refutes the frozen claims about it.

Conventions of the embedding:
* Python `float` arithmetic is modelled by `ℚ`; `math.log1p` (a transcendental
  external) is an explicit function parameter `lg`, and the external
  `dates.recency_score` collaborator (out of scope per the design document:
  "treated as an opaque function of date string and window") is an explicit
  function parameter `rec`.
* Python `int` is `ℤ`; `int(x)` on a float truncates toward zero (`pyInt`).
* Python `None` is `Option.none`; a raised exception is `Option.none` at the
  result type of the whole operation (`sortItems`).
* Python `set` of strings is `Finset String`; Python lists are `List`.
* Python strings are processed as their character lists (`String.data`),
  with structural-recursive helpers in place of the regex calls.
-/

section
attribute [local semireducible] Rat.ofScientific Rat.mul Rat.inv Rat.add Rat.sub

namespace SaasRadar

/-! ## Text normalisation and n-gram similarity
(`scripts/lib/dedupe.py` lines 9-31; `scripts/lib/idea_cluster.py` lines 9-31
are an identical copy). -/

/-- A word character in the sense of the regex `\w` (ASCII range): letters,
digits, or underscore.  `normalize_text` replaces `[^\w\s]` by a space. -/
def isWordChar (c : Char) : Bool :=
  c.isAlpha || c.isDigit || c = '_'

/-- A whitespace character in the sense of the regex `\s`. -/
def isSpaceChar (c : Char) : Bool :=
  c = ' ' || c = '\t' || c = '\n' || c = '\r' || c = '\x0b' || c = '\x0c'

/-- Split a character list at whitespace, dropping empty pieces (the
character-list rendering of splitting on the regex `\s+`). -/
def splitWords : List Char → List Char → List (List Char)
  | [], acc => if acc.isEmpty then [] else [acc.reverse]
  | c :: cs, acc =>
    if isSpaceChar c then
      if acc.isEmpty then splitWords cs [] else acc.reverse :: splitWords cs []
    else splitWords cs (c :: acc)

/-- `normalize_text` on character lists: lower-case, replace every character
that is neither a word character nor whitespace with a space, collapse
whitespace runs to a single space, and trim the ends. -/
def normalizeChars (s : String) : List Char :=
  let lowered := s.data.map Char.toLower
  let spaced := lowered.map (fun c => if isWordChar c || isSpaceChar c then c else ' ')
  List.intercalate [' '] (splitWords spaced [])

/-- `normalize_text`. -/
def normalizeText (s : String) : String :=
  String.mk (normalizeChars s)

/-- `get_ngrams`: the set of contiguous length-`n` substrings of the
normalised text; if the normalised text is shorter than `n`, the singleton
set containing the whole (possibly empty) normalised text. -/
def getNgrams (s : String) (n : ℕ) : Finset String :=
  let t := normalizeChars s
  if t.length < n then {String.mk t}
  else ((List.range (t.length - n + 1)).map
    (fun i => String.mk ((t.drop i).take n))).toFinset

/-- `jaccard_similarity`: |A∩B| / |A∪B|, with explicit `0.0` branches for an
empty input set (Python falsiness of a set is emptiness, i.e. zero card) and
for an empty union. -/
def jaccardSimilarity (s1 s2 : Finset String) : ℚ :=
  if s1.card = 0 ∨ s2.card = 0 then 0
  else
    let intersection := (s1 ∩ s2).card
    let union := (s1 ∪ s2).card
    if 0 < union then (intersection : ℚ) / (union : ℚ) else 0

/-! ## Data model (`scripts/lib/schema.py`)
`top_comments` and `comment_insights` are carried by the Python dataclass but
never read or written by the core pipeline; they are omitted here. -/

/-- `schema.Engagement`: all fields optional (Python default `None`). -/
structure Engagement where
  score : Option ℤ
  num_comments : Option ℤ
  upvote_ratio : Option ℚ
  likes : Option ℤ
  reposts : Option ℤ
  replies : Option ℤ
  quotes : Option ℤ
deriving DecidableEq, Repr

/-- `schema.SubScores`. -/
structure SubScores where
  idea_quality : ℤ
  engagement : ℤ
  market_signal : ℤ
  growth : ℤ
  recency : ℤ
deriving DecidableEq, Repr

/-- `schema.SaaSIdeaItem`. -/
structure SaaSIdeaItem where
  id : String
  title : String
  url : String
  source : String
  subreddit : String
  author_handle : String
  date : Option String
  date_confidence : String
  signal_type : String
  idea_summary : String
  target_audience : String
  subreddit_growth : ℚ
  market_signal : ℤ
  cluster_id : ℤ
  engagement : Option Engagement
  relevance : ℚ
  why_relevant : String
  subs : SubScores
  score : ℤ
deriving DecidableEq, Repr

/-- The dataclass defaults of `SaaSIdeaItem` (required fields empty). -/
def defaultItem : SaaSIdeaItem :=
  { id := "", title := "", url := "", source := "", subreddit := "",
    author_handle := "", date := none, date_confidence := "low",
    signal_type := "problem", idea_summary := "", target_audience := "",
    subreddit_growth := 1, market_signal := 25, cluster_id := -1,
    engagement := none, relevance := 1/2, why_relevant := "",
    subs := ⟨0, 0, 0, 0, 0⟩, score := 0 }

instance : Inhabited SaaSIdeaItem := ⟨defaultItem⟩

/-! ## 5-factor scoring (`scripts/lib/score.py`) -/

def WEIGHT_IDEA_QUALITY : ℚ := 0.30
def WEIGHT_ENGAGEMENT : ℚ := 0.25
def WEIGHT_MARKET_SIGNAL : ℚ := 0.20
def WEIGHT_GROWTH : ℚ := 0.15
def WEIGHT_RECENCY : ℚ := 0.10

def UNKNOWN_ENGAGEMENT_PENALTY : ℚ := 10
def LOW_DATE_CONFIDENCE_PENALTY : ℚ := 10

def DEFAULT_ENGAGEMENT : ℤ := 35

/-- `SIGNAL_TYPE_SCORES.get(·, 65)`. -/
def signalTypeScore (s : String) : ℤ :=
  if s = "wish" then 90
  else if s = "problem" then 80
  else if s = "feature_gap" then 75
  else if s = "building" then 70
  else if s = "workflow" then 65
  else 65

/-- Python `int(x)` on a float: truncation toward zero. -/
def pyInt (q : ℚ) : ℤ := Int.tdiv q.num (q.den : ℤ)

/-- `log1p_safe`: `0.0` for `None` and for negative values, otherwise
`math.log1p`, which this embedding carries as the opaque parameter `lg`. -/
def log1pSafe (lg : ℤ → ℚ) (x : Option ℤ) : ℚ :=
  match x with
  | none => 0
  | some v => if v < 0 then 0 else lg v

/-- Python `x or d` for an optional float `x`: `d` when `x` is `None` and
also when `x` is the falsy float `0.0`. -/
def pyOrQ (o : Option ℚ) (d : ℚ) : ℚ :=
  match o with
  | none => d
  | some x => if x = 0 then d else x

/-- Python `x or d` for an optional string `x`: `d` when `x` is `None` and
also when `x` is the falsy empty string. -/
def pyOrStr (o : Option String) (d : String) : String :=
  match o with
  | none => d
  | some s => if s = "" then d else s

/-- `normalize_to_100`: min-max normalisation of a batch to the 0-100 scale.
Call sites pass no `default`, so `d` is `50` there. -/
def normalizeTo100 (values : List (Option ℚ)) (d : ℚ) : List (Option ℚ) :=
  match values.filterMap id with
  | [] => values.map (fun v => some (match v with | none => d | some _ => 50))
  | v0 :: vs =>
    let min_val := vs.foldl min v0
    let max_val := vs.foldl max v0
    let range_val := max_val - min_val
    if range_val = 0 then values.map (fun _ => some 50)
    else values.map (fun v => v.map (fun x => (x - min_val) / range_val * 100))

/-- `compute_reddit_engagement_raw`:
`0.55*log1p(score) + 0.40*log1p(num_comments) + 0.05*(upvote_ratio*10)`,
`None` when the engagement struct is absent or both `score` and
`num_comments` are absent; a missing (or falsy) ratio defaults to `0.5`. -/
def computeRedditEngagementRaw (lg : ℤ → ℚ) (e : Option Engagement) : Option ℚ :=
  match e with
  | none => none
  | some eng =>
    if eng.score = none ∧ eng.num_comments = none then none
    else
      let s := log1pSafe lg eng.score
      let comments := log1pSafe lg eng.num_comments
      let ratio := pyOrQ eng.upvote_ratio (1/2) * 10
      some (0.55 * s + 0.40 * comments + 0.05 * ratio)

/-- `compute_x_engagement_raw`:
`0.55*log1p(likes) + 0.25*log1p(reposts) + 0.15*log1p(replies) +
0.05*log1p(quotes)`, `None` when the engagement struct is absent or both
`likes` and `reposts` are absent. -/
def computeXEngagementRaw (lg : ℤ → ℚ) (e : Option Engagement) : Option ℚ :=
  match e with
  | none => none
  | some eng =>
    if eng.likes = none ∧ eng.reposts = none then none
    else
      let likes := log1pSafe lg eng.likes
      let reposts := log1pSafe lg eng.reposts
      let replies := log1pSafe lg eng.replies
      let quotes := log1pSafe lg eng.quotes
      some (0.55 * likes + 0.25 * reposts + 0.15 * replies + 0.05 * quotes)

/-- The source dispatch of `score_saas_items` lines 148-152: Reddit items use
the Reddit raw formula, everything else the X formula. -/
def rawEngagement (lg : ℤ → ℚ) (it : SaaSIdeaItem) : Option ℚ :=
  if it.source = "reddit" then computeRedditEngagementRaw lg it.engagement
  else computeXEngagementRaw lg it.engagement

/-- `_compute_idea_quality`: base score by signal type, `+10` capped at 100
when the target audience is a non-empty string longer than 10 characters. -/
def computeIdeaQuality (it : SaaSIdeaItem) : ℤ :=
  let base := signalTypeScore it.signal_type
  if it.target_audience.data ≠ [] ∧ it.target_audience.data.length > 10 then
    min (base + 10) 100
  else base

/-- `_compute_growth_score`: step function over the acceleration. -/
def computeGrowthScore (acceleration : ℚ) : ℤ :=
  if acceleration ≥ 3.0 then 100
  else if acceleration ≥ 2.0 then 80
  else if acceleration ≥ 1.5 then 60
  else if acceleration ≥ 1.2 then 40
  else if acceleration ≥ 1.0 then 20
  else 0

/-- One iteration of the scoring loop of `score_saas_items` (lines 157-201):
`raw` is this item's raw engagement, `nrm` its batch-normalised engagement. -/
def scoreOne (rec : Option String → ℤ) (it : SaaSIdeaItem)
    (raw : Option ℚ) (nrm : Option ℚ) : SaaSIdeaItem :=
  let idea_quality := computeIdeaQuality it
  let eng_score : ℤ :=
    match nrm with
    | some q => pyInt q
    | none => DEFAULT_ENGAGEMENT
  let market_signal := it.market_signal
  let growth := computeGrowthScore it.subreddit_growth
  let recency := rec it.date
  let overall : ℚ :=
    WEIGHT_IDEA_QUALITY * (idea_quality : ℚ) +
    WEIGHT_ENGAGEMENT * (eng_score : ℚ) +
    WEIGHT_MARKET_SIGNAL * (market_signal : ℚ) +
    WEIGHT_GROWTH * (growth : ℚ) +
    WEIGHT_RECENCY * (recency : ℚ)
  let overall2 := if raw = none then overall - UNKNOWN_ENGAGEMENT_PENALTY else overall
  let overall3 :=
    if it.date_confidence = "low" then overall2 - LOW_DATE_CONFIDENCE_PENALTY else overall2
  { it with
    subs := ⟨idea_quality, eng_score, market_signal, growth, recency⟩,
    score := max 0 (min 100 (pyInt overall3)) }

/-- `score_saas_items`: raw engagement per item (source-aware), batch
min-max normalisation, then the per-item scoring loop. -/
def scoreSaasItems (lg : ℤ → ℚ) (rec : Option String → ℤ)
    (items : List SaaSIdeaItem) : List SaaSIdeaItem :=
  if items.isEmpty then items
  else
    let eng_raw := items.map (rawEngagement lg)
    let eng_normalized := normalizeTo100 eng_raw 50
    (items.zip (eng_raw.zip eng_normalized)).map
      (fun p => scoreOne rec p.1 p.2.1 p.2.2)

/-! ## Sorting (`scripts/lib/score.py` lines 206-222) -/

/-- Python string `<`: lexicographic comparison by code point. -/
def charListLt : List Char → List Char → Bool
  | [], [] => false
  | [], _ :: _ => true
  | _ :: _, [] => false
  | a :: as, b :: bs => if a = b then charListLt as bs else decide (a < b)

/-- `date.replace("-", "")`. -/
def stripDashes (s : String) : String :=
  String.mk (s.data.filter (fun c => c ≠ '-'))

/-- The digits of a decimal numeral, most significant first. -/
def digitsVal : List Char → ℕ → Option ℕ
  | [], acc => some acc
  | c :: cs, acc =>
    if c.isDigit then digitsVal cs (acc * 10 + (c.toNat - '0'.toNat)) else none

/-- Python `int(s)` for a decimal string: an optional sign followed by at
least one digit; everything else raises `ValueError`, modelled as `none`. -/
def pyParseInt (s : String) : Option ℤ :=
  match s.data with
  | [] => none
  | '+' :: rest =>
    if rest.isEmpty then none else (digitsVal rest 0).map (fun v => (v : ℤ))
  | '-' :: rest =>
    if rest.isEmpty then none else (digitsVal rest 0).map (fun v => -(v : ℤ))
  | l => (digitsVal l 0).map (fun v => (v : ℤ))

/-- `sort_key` (lines 215-220): `(-score, -int(date.replace("-","")),
source_priority, title)` with an undated item getting `"0000-00-00"`.
`none` models the `ValueError` that `int` raises on a malformed date. -/
def sortKey (it : SaaSIdeaItem) : Option (ℤ × ℤ × ℕ × String) :=
  let score := -it.score
  let date := pyOrStr it.date "0000-00-00"
  match pyParseInt (stripDashes date) with
  | none => none
  | some v =>
    let date_key := -v
    let source_priority : ℕ := if it.source = "reddit" then 0 else 1
    some (score, date_key, source_priority, it.title)

/-- Non-strict lexicographic comparison of sort keys (Python tuple `≤`). -/
def keyLe (k1 k2 : ℤ × ℤ × ℕ × String) : Bool :=
  if k1.1 ≠ k2.1 then decide (k1.1 < k2.1)
  else if k1.2.1 ≠ k2.2.1 then decide (k1.2.1 < k2.2.1)
  else if k1.2.2.1 ≠ k2.2.2.1 then decide (k1.2.2.1 < k2.2.2.1)
  else if k1.2.2.2 ≠ k2.2.2.2 then charListLt k1.2.2.2.data k2.2.2.2.data
  else true

/-- Insert a keyed item into an already sorted keyed list, after every entry
whose key is `≤` its own (the placement a stable sort gives it). -/
def insertKeyed (x : (ℤ × ℤ × ℕ × String) × SaaSIdeaItem) :
    List ((ℤ × ℤ × ℕ × String) × SaaSIdeaItem) →
    List ((ℤ × ℤ × ℕ × String) × SaaSIdeaItem)
  | [] => [x]
  | y :: ys => if keyLe y.1 x.1 then y :: insertKeyed x ys else x :: y :: ys

/-- The decorate step of `sorted(items, key=sort_key)`: compute each item's
key once, left to right, aborting (the `ValueError`) on the first failure. -/
def keyItems : List SaaSIdeaItem → Option (List ((ℤ × ℤ × ℕ × String) × SaaSIdeaItem))
  | [] => some []
  | it :: rest =>
    match sortKey it, keyItems rest with
    | some k, some ks => some ((k, it) :: ks)
    | _, _ => none

/-- `sorted(items, key=sort_key)`: compute each key once (raising, i.e.
`none`, if any date is malformed), then stable-sort by the key. -/
def sortItems (items : List SaaSIdeaItem) : Option (List SaaSIdeaItem) :=
  match keyItems items with
  | none => none
  | some keyed =>
    some ((keyed.foldl (fun acc x => insertKeyed x acc) []).map Prod.snd)

/-! ## Near-duplicate suppression (`scripts/lib/dedupe.py` lines 34-86) -/

/-- `find_duplicates`: every pair `(i, j)`, `i < j`, whose title n-gram
Jaccard similarity is at least the threshold. -/
def findDuplicates (items : List SaaSIdeaItem) (threshold : ℚ) : List (ℕ × ℕ) :=
  let ngrams := items.map (fun it => getNgrams it.title 3)
  (List.range items.length).flatMap
    (fun i => ((List.range items.length).drop (i + 1)).filterMap
      (fun j =>
        if jaccardSimilarity (ngrams.getD i ∅) (ngrams.getD j ∅) ≥ threshold then
          some (i, j)
        else none))

/-- The removal set of `dedupe_saas`: for each duplicate pair, the
lower-scored member (the higher-indexed one on ties). -/
def dedupeRemovalSet (items : List SaaSIdeaItem) (dup_pairs : List (ℕ × ℕ)) : Finset ℕ :=
  dup_pairs.foldl
    (fun s ij =>
      if (items.getD ij.1 defaultItem).score ≥ (items.getD ij.2 defaultItem).score then
        insert ij.2 s
      else insert ij.1 s)
    ∅

/-- `dedupe_saas`: drop every index marked for removal, preserving order;
inputs of length ≤ 1 are returned unchanged without comparison. -/
def dedupeSaas (items : List SaaSIdeaItem) (threshold : ℚ) : List SaaSIdeaItem :=
  if items.length ≤ 1 then items
  else
    let dup_pairs := findDuplicates items threshold
    let to_remove := dedupeRemovalSet items dup_pairs
    (items.enum.filter (fun p => p.1 ∉ to_remove)).map Prod.snd

/-! ## Idea clustering (`scripts/lib/idea_cluster.py` lines 34-114) -/

/-- `parent[i]` (indices used by the algorithm are always in bounds; the
out-of-range default `i` makes the parent function total). -/
def parentGet (p : List ℕ) (i : ℕ) : ℕ := p.getD i i

/-- `_find_root`: find with path halving (`parent[i] = parent[parent[i]];
i = parent[i]`).  The Python `while` loop is fueled; every call passes
`p.length`, enough fuel under the union-find invariant. -/
def findRoot : ℕ → List ℕ → ℕ → List ℕ × ℕ
  | 0, p, i => (p, i)
  | fuel + 1, p, i =>
    if parentGet p i = i then (p, i)
    else
      let g := parentGet p (parentGet p i)
      findRoot fuel (p.set i g) g

/-- `_union`: union by rank of the roots of `a` and `b`. -/
def unionUF (p : List ℕ) (r : List ℕ) (a b : ℕ) : List ℕ × List ℕ :=
  let fa := findRoot p.length p a
  let fb := findRoot fa.1.length fa.1 b
  let p2 := fb.1
  let ra := fa.2
  let rb := fb.2
  if ra = rb then (p2, r)
  else
    let sw := if r.getD ra 0 < r.getD rb 0 then (rb, ra) else (ra, rb)
    let p3 := p2.set sw.2 sw.1
    let r2 := if r.getD sw.1 0 = r.getD sw.2 0 then r.set sw.1 (r.getD sw.1 0 + 1) else r
    (p3, r2)

/-- The `clusters` dictionary of `cluster_ideas` (insertion-ordered): append
index `i` to the entry of `root`, creating the entry at the end if new. -/
def addToClusters : List (ℕ × List ℕ) → ℕ → ℕ → List (ℕ × List ℕ)
  | [], root, i => [(root, [i])]
  | (r, ms) :: rest, root, i =>
    if r = root then (r, ms ++ [i]) :: rest
    else (r, ms) :: addToClusters rest root i

/-- The unordered-pair sweep `for i: for j in range(i+1, n)`. -/
def allPairs (n : ℕ) : List (ℕ × ℕ) :=
  (List.range n).flatMap (fun i => ((List.range n).drop (i + 1)).map (fun j => (i, j)))

/-- `cluster_ideas`: union-find over all similar pairs of idea summaries,
then a sweep grouping indices by root, then assignment of dense cluster ids
and `market_signal = min(size*25, 100)`. -/
def clusterIdeas (items : List SaaSIdeaItem) (threshold : ℚ) : List SaaSIdeaItem :=
  if items.length ≤ 1 then
    items.map (fun it => { it with market_signal := 25, cluster_id := 0 })
  else
    let n := items.length
    let ngrams := items.map (fun it => getNgrams it.idea_summary 3)
    let uf := (allPairs n).foldl
      (fun (pr : List ℕ × List ℕ) ij =>
        if jaccardSimilarity (ngrams.getD ij.1 ∅) (ngrams.getD ij.2 ∅) ≥ threshold then
          unionUF pr.1 pr.2 ij.1 ij.2
        else pr)
      (List.range n, List.replicate n 0)
    let sweep := (List.range n).foldl
      (fun (acc : List ℕ × List (ℕ × List ℕ)) i =>
        let fr := findRoot acc.1.length acc.1 i
        (fr.1, addToClusters acc.2 fr.2 i))
      (uf.1, [])
    sweep.2.enum.foldl
      (fun (its : List SaaSIdeaItem) ce =>
        let members := ce.2.2
        let ms : ℕ := min (members.length * 25) 100
        members.foldl
          (fun its2 idx =>
            its2.set idx
              { its2.getD idx defaultItem with
                cluster_id := (ce.1 : ℤ), market_signal := (ms : ℤ) })
          its)
      items

/-! ## Concrete inputs used by the witness theorems -/
def lg0 : ℤ → ℚ := fun _ => 0

def rec0 : Option String → ℤ := fun _ => 0

def mkIt (idv titlev summaryv : String) (sc : ℤ) : SaaSIdeaItem :=
  { defaultItem with id := idv, title := titlev, idea_summary := summaryv, score := sc }

def exD : List SaaSIdeaItem :=
  [ mkIt "a" "abcdefghijklmnop" "" 10,
    mkIt "b" "abcdefghijklmnopqrst" "" 5,
    mkIt "c" "wxyzabcdefghijklmnop" "" 20 ]

def exC : List SaaSIdeaItem :=
  [ mkIt "a" "" "abcdefghijklmnopqrstuvwxyz0123456" 0,
    mkIt "b" "" "abcdefghijklmnop" 0,
    mkIt "c" "" "_zyx_wvut_srq_777abcdefghijklmnop" 0 ]

def rec20 : Option String → ℤ := fun _ => 20

def exScore : SaaSIdeaItem :=
  { defaultItem with
    id := "s"
    signal_type := "wish"
    target_audience := "dog groomers everywhere"
    source := "reddit"
    date_confidence := "high"
    market_signal := 75
    subreddit_growth := 1.2
    engagement := some ⟨some 5, none, some (4/5), none, none, none, none⟩ }

def exNull : SaaSIdeaItem :=
  { defaultItem with
    id := "n"
    source := "reddit"
    date_confidence := "high"
    signal_type := "workflow" }

def exEngA : SaaSIdeaItem :=
  { defaultItem with
    id := "ea"
    source := "reddit"
    date_confidence := "high"
    engagement := some ⟨some 1, none, some (4/5), none, none, none, none⟩ }

def exEngB : SaaSIdeaItem :=
  { defaultItem with
    id := "eb"
    source := "reddit"
    date_confidence := "high"
    engagement := some ⟨some 1, none, some (2/5), none, none, none, none⟩ }

def exS1 : SaaSIdeaItem := { defaultItem with id := "1", title := "t", source := "x", date := some "2024-01-05", score := 10 }

def exS2 : SaaSIdeaItem := { defaultItem with id := "2", title := "t", source := "reddit", date := some "2024-03-05", score := 10 }

def exS3 : SaaSIdeaItem := { defaultItem with id := "3", title := "t", source := "reddit", date := none, score := 10 }

def exSbad : SaaSIdeaItem := { defaultItem with id := "4", title := "t", source := "reddit", date := some "not-a-date", score := 10 }

def exT1 : SaaSIdeaItem := { defaultItem with id := "i1", title := "same title", source := "reddit", date := none, score := 5 }

def exT2 : SaaSIdeaItem := { defaultItem with id := "i2", title := "same title", source := "reddit", date := none, score := 5 }

/-! ## Union-find verification layer for `cluster_ideas`: definitions -/

/-- `x` is its own parent. -/
def isRoot (p : List ℕ) (x : ℕ) : Prop := parentGet p x = x

/-- The root of `x`: following parents for `2·|p|` steps, enough to reach the
fixpoint (and stay there) under `UFInv`. -/
def rootF (p : List ℕ) (x : ℕ) : ℕ := (parentGet p)^[2 * p.length] x

/-- The union-find invariant: in-range parents stay in range, and every
parent chain eventually reaches a fixpoint. -/
def UFInv (p : List ℕ) : Prop :=
  (∀ i, i < p.length → parentGet p i < p.length) ∧
  (∀ x, ∃ k, isRoot p ((parentGet p)^[k] x))

/-- Similarity of two item indices at a threshold: the relation whose
transitive closure `cluster_ideas` is claimed to compute. -/
def simRel (items : List SaaSIdeaItem) (thr : ℚ) (u v : ℕ) : Prop :=
  u ≠ v ∧ u < items.length ∧ v < items.length ∧
  thr ≤ jaccardSimilarity (getNgrams (items.getD u defaultItem).idea_summary 3)
    (getNgrams (items.getD v defaultItem).idea_summary 3)

/-- The idea-summary n-gram set at index `u`, as the pair sweep reads it. -/
def summaryNgramsAt (items : List SaaSIdeaItem) (u : ℕ) : Finset String :=
  (items.map (fun it => getNgrams it.idea_summary 3)).getD u ∅

/-- One step of the pair sweep of `cluster_ideas`. -/
def ufStep (items : List SaaSIdeaItem) (thr : ℚ) :
    List ℕ × List ℕ → ℕ × ℕ → List ℕ × List ℕ :=
  fun pr ij =>
    if jaccardSimilarity (summaryNgramsAt items ij.1) (summaryNgramsAt items ij.2) ≥ thr then
      unionUF pr.1 pr.2 ij.1 ij.2
    else pr

/-- The parent list produced by the pair sweep of `cluster_ideas`. -/
def ufParent (items : List SaaSIdeaItem) (thr : ℚ) : List ℕ :=
  ((allPairs items.length).foldl (ufStep items thr)
    (List.range items.length, List.replicate items.length 0)).1

/-- The root of index `x` in the final union-find state. -/
def rootAt (items : List SaaSIdeaItem) (thr : ℚ) (x : ℕ) : ℕ :=
  rootF (ufParent items thr) x

/-- The grouping sweep's cluster list, compression elided (justified by
`sweep_spec`). -/
def theClusters (items : List SaaSIdeaItem) (thr : ℚ) : List (ℕ × List ℕ) :=
  (List.range items.length).foldl
    (fun cl i => addToClusters cl (rootAt items thr i) i) []

/-- The dense cluster id assigned to index `k`: the position of its root in
the insertion-ordered key list. -/
def clusterIdOf (items : List SaaSIdeaItem) (thr : ℚ) (k : ℕ) : ℕ :=
  ((theClusters items thr).map Prod.fst).indexOf (rootAt items thr k)

/-- One step of the final assignment fold of `cluster_ideas`. -/
def assignStep : List SaaSIdeaItem → ℕ × (ℕ × List ℕ) → List SaaSIdeaItem :=
  fun its ce =>
    let members := ce.2.2
    let ms : ℕ := min (members.length * 25) 100
    members.foldl
      (fun its2 idx =>
        its2.set idx
          { its2.getD idx defaultItem with
            cluster_id := (ce.1 : ℤ), market_signal := (ms : ℤ) })
      its

/-! ## Helper lemmas -/

/-- The n-gram set of any text is nonempty: a short text contributes the
singleton of its whole normalised form, a long one its first n-gram. -/
theorem getNgrams_nonempty (s : String) (n : ℕ) : (getNgrams s n).Nonempty := by
  unfold getNgrams
  by_cases h : (normalizeChars s).length < n
  · simp [h]
  · simp only [h, if_false]
    refine ⟨String.mk (((normalizeChars s).drop 0).take n), ?_⟩
    simp only [List.mem_toFinset, List.mem_map]
    exact ⟨0, by simp [List.mem_range], rfl⟩

/-- `normalizeText s = ""` exactly when `normalizeChars s = []`. -/
theorem normalizeText_eq_empty_iff (s : String) :
    normalizeText s = "" ↔ normalizeChars s = [] := by
  unfold normalizeText
  constructor
  · intro h
    have := congrArg String.data h
    simpa using this
  · intro h
    rw [h]

/-- The n-gram set of a text with empty normalised form is `{""}`. -/
theorem getNgrams_of_empty (s : String) (n : ℕ) (h : normalizeChars s = []) :
    getNgrams s n = {""} := by
  unfold getNgrams
  rw [h]
  by_cases hn : ([] : List Char).length < n
  · simp [hn]
  · simp only [hn, if_false]
    simp at hn
    subst hn
    rfl

/-- C2, amended.  The similarity of two texts with empty normalised form. -/
theorem c2_amended :
    (∀ s2 : Finset String, jaccardSimilarity ∅ s2 = 0) ∧
    (∀ s1 : Finset String, jaccardSimilarity s1 ∅ = 0) ∧
    (∀ (t : String) (n : ℕ), (normalizeChars t).length < n →
      getNgrams t n = {normalizeText t}) ∧
    (∀ (a b : String) (n : ℕ), normalizeText a = "" → normalizeText b = "" →
      jaccardSimilarity (getNgrams a n) (getNgrams b n) = 1) := by
  refine ⟨?_, ?_, ?_, ?_⟩
  · intro s2
    simp [jaccardSimilarity]
  · intro s1
    simp [jaccardSimilarity]
  · intro t n h
    simp [getNgrams, h, normalizeText]
  · intro a b n ha hb
    rw [getNgrams_of_empty a n ((normalizeText_eq_empty_iff a).1 ha),
        getNgrams_of_empty b n ((normalizeText_eq_empty_iff b).1 hb)]
    decide

theorem c2_witness :
    jaccardSimilarity ∅ {"abc"} = 0 ∧
    jaccardSimilarity {"abc"} ∅ = 0 ∧
    getNgrams "hi" 3 = {normalizeText "hi"} ∧
    jaccardSimilarity (getNgrams "!!" 3) (getNgrams "??" 3) = 1 :=
  ⟨c2_amended.1 {"abc"}, c2_amended.2.1 {"abc"},
   c2_amended.2.2.1 "hi" 3 (by decide),
   c2_amended.2.2.2 "!!" "??" 3 (by decide) (by decide)⟩

theorem c2_counterexample :
    jaccardSimilarity (getNgrams "" 3) (getNgrams "" 3) = 1 ∧
    jaccardSimilarity (getNgrams "" 3) (getNgrams "" 3) ≠ 0 := by
  decide

/-! ## Scoring lemmas -/

theorem normalizeTo100_length (values : List (Option ℚ)) (d : ℚ) :
    (normalizeTo100 values d).length = values.length := by
  unfold normalizeTo100
  split
  · simp
  · dsimp only
    split <;> simp

theorem scoreSaasItems_length (lg : ℤ → ℚ) (rec : Option String → ℤ)
    (items : List SaaSIdeaItem) :
    (scoreSaasItems lg rec items).length = items.length := by
  unfold scoreSaasItems
  split
  · rfl
  · simp [List.length_zip, normalizeTo100_length]

/-- Indexing into `score_saas_items`: item `i` of the output is the scoring
loop body applied to item `i`, its raw engagement, and entry `i` of the
batch-normalised engagement list. -/
theorem scoreSaasItems_getD (lg : ℤ → ℚ) (rec : Option String → ℤ)
    (items : List SaaSIdeaItem) (i : ℕ) (hi : i < items.length) :
    (scoreSaasItems lg rec items).getD i defaultItem =
      scoreOne rec (items.getD i defaultItem)
        (rawEngagement lg (items.getD i defaultItem))
        ((normalizeTo100 (items.map (rawEngagement lg)) 50).getD i none) := by
  have hne : items.isEmpty = false := by
    cases items with
    | nil => simp at hi
    | cons a l => rfl
  have hBlen : (items.map (rawEngagement lg)).length = items.length := by simp
  have hClen : (normalizeTo100 (items.map (rawEngagement lg)) 50).length = items.length := by
    rw [normalizeTo100_length, hBlen]
  have hzlen :
      (items.zip ((items.map (rawEngagement lg)).zip
        (normalizeTo100 (items.map (rawEngagement lg)) 50))).length = items.length := by
    simp [List.length_zip, hBlen, hClen]
  unfold scoreSaasItems
  rw [hne]
  simp only [Bool.false_eq_true, if_false]
  rw [List.getD_eq_getElem _ _ (by simpa [hzlen] using hi)]
  rw [List.getElem_map, List.getElem_zip, List.getElem_zip, List.getElem_map]
  rw [List.getD_eq_getElem _ _ hi, List.getD_eq_getElem _ _ (by rw [hClen]; exact hi)]

theorem getD_mem {l : List SaaSIdeaItem} {i : ℕ} (hi : i < l.length) :
    l.getD i defaultItem ∈ l := by
  rw [List.getD_eq_getElem _ _ hi]
  exact List.getElem_mem _

/-- C1, amended: in an all-null batch `normalize_to_100` hits its no-valid-
values branch whose caller-side default is 50 (not the 35 constant), and the
null-engagement penalty of 10 is subtracted from every composite. -/
theorem c1_amended (lg : ℤ → ℚ) (rec : Option String → ℤ) (items : List SaaSIdeaItem)
    (hnull : ∀ it ∈ items, rawEngagement lg it = none)
    (i : ℕ) (hi : i < items.length) :
    ((scoreSaasItems lg rec items).getD i defaultItem).subs.engagement = 50 ∧
    ((scoreSaasItems lg rec items).getD i defaultItem).score =
      max 0 (min 100 (pyInt (
        WEIGHT_IDEA_QUALITY * (computeIdeaQuality (items.getD i defaultItem) : ℚ) +
        WEIGHT_ENGAGEMENT * 50 +
        WEIGHT_MARKET_SIGNAL * ((items.getD i defaultItem).market_signal : ℚ) +
        WEIGHT_GROWTH * (computeGrowthScore (items.getD i defaultItem).subreddit_growth : ℚ) +
        WEIGHT_RECENCY * (rec (items.getD i defaultItem).date : ℚ) -
        UNKNOWN_ENGAGEMENT_PENALTY -
        (if (items.getD i defaultItem).date_confidence = "low" then
          LOW_DATE_CONFIDENCE_PENALTY else 0)))) := by
  have hraw : rawEngagement lg (items.getD i defaultItem) = none :=
    hnull _ (getD_mem hi)
  have hfm : (items.map (rawEngagement lg)).filterMap id = [] := by
    rw [List.filterMap_eq_nil_iff]
    intro a ha
    rcases List.mem_map.mp ha with ⟨it, hit, rfl⟩
    simpa using hnull it hit
  have hnorm : normalizeTo100 (items.map (rawEngagement lg)) 50 =
      (items.map (rawEngagement lg)).map
        (fun v => some (match v with | none => (50 : ℚ) | some _ => 50)) := by
    unfold normalizeTo100
    rw [hfm]
  have hnd : (normalizeTo100 (items.map (rawEngagement lg)) 50).getD i none =
      some 50 := by
    rw [hnorm]
    rw [List.getD_eq_getElem _ _ (by simpa using hi)]
    rw [List.getElem_map, List.getElem_map]
    have : rawEngagement lg items[i] = none := hnull _ (List.getElem_mem _)
    rw [this]
  rw [scoreSaasItems_getD lg rec items i hi, hnd]
  unfold scoreOne
  rw [hraw]
  simp only [if_pos rfl]
  constructor
  · show pyInt 50 = 50
    decide
  · show max 0 (min 100 (pyInt _)) = max 0 (min 100 (pyInt _))
    congr 2
    have h50 : ((pyInt 50 : ℤ) : ℚ) = 50 := by decide
    split_ifs with h
    · rw [h50]
    · rw [h50]; ring_nf

theorem c1_witness :
    ((scoreSaasItems lg0 rec0 [exNull]).getD 0 defaultItem).subs.engagement = 50 ∧
    ((scoreSaasItems lg0 rec0 [exNull]).getD 0 defaultItem).score =
      max 0 (min 100 (pyInt (
        WEIGHT_IDEA_QUALITY * (computeIdeaQuality ([exNull].getD 0 defaultItem) : ℚ) +
        WEIGHT_ENGAGEMENT * 50 +
        WEIGHT_MARKET_SIGNAL * (([exNull].getD 0 defaultItem).market_signal : ℚ) +
        WEIGHT_GROWTH * (computeGrowthScore ([exNull].getD 0 defaultItem).subreddit_growth : ℚ) +
        WEIGHT_RECENCY * (rec0 ([exNull].getD 0 defaultItem).date : ℚ) -
        UNKNOWN_ENGAGEMENT_PENALTY -
        (if ([exNull].getD 0 defaultItem).date_confidence = "low" then
          LOW_DATE_CONFIDENCE_PENALTY else 0)))) :=
  c1_amended lg0 rec0 [exNull] (by decide) 0 (by decide)

/-- C1 counterexample: a one-item all-null batch gets engagement subscore 50,
not the claimed batch default of 35 (the composite is 30: the weighted sum 40
minus the null-engagement penalty). -/
theorem c1_counterexample :
    ((scoreSaasItems lg0 rec0 [exNull]).map (fun it => (it.subs.engagement, it.score))
      = [(50, 30)]) ∧
    ((scoreSaasItems lg0 rec0 [exNull]).getD 0 defaultItem).subs.engagement ≠ 35 := by
  decide

theorem foldl_min_le_init (v0 : ℚ) (vs : List ℚ) : vs.foldl min v0 ≤ v0 := by
  induction vs generalizing v0 with
  | nil => exact le_refl _
  | cons a l ih => exact le_trans (ih (min v0 a)) (min_le_left _ _)

theorem le_foldl_max_init (v0 : ℚ) (vs : List ℚ) : v0 ≤ vs.foldl max v0 := by
  induction vs generalizing v0 with
  | nil => exact le_refl _
  | cons a l ih => exact le_trans (le_max_left _ _) (ih (max v0 a))

theorem foldl_min_le (v0 : ℚ) (vs : List ℚ) (x : ℚ) (hx : x ∈ v0 :: vs) :
    vs.foldl min v0 ≤ x := by
  induction vs generalizing v0 with
  | nil => simp at hx; simp [hx]
  | cons a l ih =>
    rcases List.mem_cons.mp hx with h | h
    · rw [h]
      exact foldl_min_le_init v0 (a :: l)
    · rcases List.mem_cons.mp h with h2 | h2
      · rw [h2]
        exact le_trans (foldl_min_le_init (min v0 a) l) (min_le_right v0 a)
      · exact ih (min v0 a) (List.mem_cons_of_mem _ h2)

theorem le_foldl_max (v0 : ℚ) (vs : List ℚ) (x : ℚ) (hx : x ∈ v0 :: vs) :
    x ≤ vs.foldl max v0 := by
  induction vs generalizing v0 with
  | nil => simp at hx; simp [hx]
  | cons a l ih =>
    rcases List.mem_cons.mp hx with h | h
    · rw [h]
      exact le_foldl_max_init v0 (a :: l)
    · rcases List.mem_cons.mp h with h2 | h2
      · rw [h2]
        exact le_trans (le_max_right v0 a) (le_foldl_max_init (max v0 a) l)
      · exact ih (max v0 a) (List.mem_cons_of_mem _ h2)

/-- A batch entry still null after normalisation was null before it. -/
theorem normalizeTo100_getD_none (values : List (Option ℚ)) (d : ℚ) (i : ℕ)
    (hi : i < values.length)
    (h : (normalizeTo100 values d).getD i none = none) :
    values.getD i none = none := by
  revert h
  unfold normalizeTo100
  split
  · intro h
    rw [List.getD_eq_getElem _ _ (by simpa using hi), List.getElem_map] at h
    simp at h
  · dsimp only
    split
    · intro h
      rw [List.getD_eq_getElem _ _ (by simpa using hi), List.getElem_map] at h
      simp at h
    · intro h
      rw [List.getD_eq_getElem _ _ (by simpa using hi), List.getElem_map] at h
      rw [List.getD_eq_getElem _ _ hi]
      exact Option.map_eq_none.mp h

/-- C3: min-max normalisation of engagement.  (a) with at least two distinct
non-null raw values, non-null entries are linearly scaled into [0,100] and
null entries stay null; (b) with all non-null raw values equal, every entry
becomes 50; (c) an entry still null after normalisation gets the fixed
engagement subscore 35 (`DEFAULT_ENGAGEMENT`) and the 10-point
null-engagement composite penalty, both together. -/
theorem c3_normalization :
    (∀ (values : List (Option ℚ)) (v0 : ℚ) (vs : List ℚ),
      values.filterMap id = v0 :: vs →
      vs.foldl max v0 - vs.foldl min v0 ≠ 0 →
      (normalizeTo100 values 50 = values.map
        (fun v => Option.map
          (fun x => (x - vs.foldl min v0) / (vs.foldl max v0 - vs.foldl min v0) * 100) v)) ∧
      (∀ x ∈ values.filterMap id,
        0 ≤ (x - vs.foldl min v0) / (vs.foldl max v0 - vs.foldl min v0) * 100 ∧
        (x - vs.foldl min v0) / (vs.foldl max v0 - vs.foldl min v0) * 100 ≤ 100)) ∧
    (∀ (values : List (Option ℚ)) (v0 : ℚ) (vs : List ℚ),
      values.filterMap id = v0 :: vs →
      vs.foldl max v0 - vs.foldl min v0 = 0 →
      normalizeTo100 values 50 = values.map (fun _ => some 50)) ∧
    (∀ (lg : ℤ → ℚ) (rec : Option String → ℤ) (items : List SaaSIdeaItem) (i : ℕ),
      i < items.length →
      (normalizeTo100 (items.map (rawEngagement lg)) 50).getD i none = none →
      ((scoreSaasItems lg rec items).getD i defaultItem).subs.engagement =
        DEFAULT_ENGAGEMENT ∧
      ((scoreSaasItems lg rec items).getD i defaultItem).score =
        max 0 (min 100 (pyInt (
          WEIGHT_IDEA_QUALITY * (computeIdeaQuality (items.getD i defaultItem) : ℚ) +
          WEIGHT_ENGAGEMENT * (DEFAULT_ENGAGEMENT : ℚ) +
          WEIGHT_MARKET_SIGNAL * ((items.getD i defaultItem).market_signal : ℚ) +
          WEIGHT_GROWTH * (computeGrowthScore (items.getD i defaultItem).subreddit_growth : ℚ) +
          WEIGHT_RECENCY * (rec (items.getD i defaultItem).date : ℚ) -
          UNKNOWN_ENGAGEMENT_PENALTY -
          (if (items.getD i defaultItem).date_confidence = "low" then
            LOW_DATE_CONFIDENCE_PENALTY else 0))))) := by
  refine ⟨?_, ?_, ?_⟩
  · intro values v0 vs hfm hrange
    have hminmax : vs.foldl min v0 ≤ vs.foldl max v0 :=
      le_trans (foldl_min_le_init v0 vs) (le_foldl_max_init v0 vs)
    have hR : 0 < vs.foldl max v0 - vs.foldl min v0 :=
      lt_of_le_of_ne (sub_nonneg.mpr hminmax) (Ne.symm hrange)
    constructor
    · unfold normalizeTo100
      rw [hfm]
      dsimp only
      rw [if_neg hrange]
    · intro x hx
      rw [hfm] at hx
      have hmin : vs.foldl min v0 ≤ x := foldl_min_le v0 vs x hx
      have hmax : x ≤ vs.foldl max v0 := le_foldl_max v0 vs x hx
      constructor
      · apply mul_nonneg
        · exact div_nonneg (sub_nonneg.mpr hmin) (le_of_lt hR)
        · norm_num
      · have h1 : (x - vs.foldl min v0) / (vs.foldl max v0 - vs.foldl min v0) ≤ 1 :=
          (div_le_one hR).mpr (by linarith)
        calc (x - vs.foldl min v0) / (vs.foldl max v0 - vs.foldl min v0) * 100
            ≤ 1 * 100 := by
              apply mul_le_mul_of_nonneg_right h1
              norm_num
          _ = 100 := by norm_num
  · intro values v0 vs hfm hrange
    unfold normalizeTo100
    rw [hfm]
    dsimp only
    rw [if_pos hrange]
  · intro lg rec items i hi hnone
    have hraw : rawEngagement lg (items.getD i defaultItem) = none := by
      have h1 : (items.map (rawEngagement lg)).getD i none = none :=
        normalizeTo100_getD_none _ 50 i (by simpa using hi) hnone
      rw [List.getD_eq_getElem _ _ (by simpa using hi), List.getElem_map] at h1
      rw [List.getD_eq_getElem _ _ hi]
      exact h1
    rw [scoreSaasItems_getD lg rec items i hi, hnone]
    unfold scoreOne
    rw [hraw]
    simp only [if_pos rfl]
    constructor
    · trivial
    · show max 0 (min 100 (pyInt _)) = max 0 (min 100 (pyInt _))
      congr 2
      split_ifs with h
      · ring_nf
      · ring_nf

theorem c3_witness :
    ((normalizeTo100 [some 0, none, some 10] 50 = [some 0, none, some 10].map
        (fun v => Option.map
          (fun x => (x - [(10 : ℚ)].foldl min 0) / ([(10 : ℚ)].foldl max 0 - [(10 : ℚ)].foldl min 0) * 100) v)) ∧
      (∀ x ∈ ([some 0, none, some 10] : List (Option ℚ)).filterMap id,
        0 ≤ (x - [(10 : ℚ)].foldl min 0) / ([(10 : ℚ)].foldl max 0 - [(10 : ℚ)].foldl min 0) * 100 ∧
        (x - [(10 : ℚ)].foldl min 0) / ([(10 : ℚ)].foldl max 0 - [(10 : ℚ)].foldl min 0) * 100 ≤ 100)) ∧
    (normalizeTo100 [some 5, none, some 5] 50 =
      [some 5, none, some 5].map (fun _ => some 50)) ∧
    (((scoreSaasItems lg0 rec0 [exEngA, exEngB, exNull]).getD 2 defaultItem).subs.engagement =
        DEFAULT_ENGAGEMENT ∧
      ((scoreSaasItems lg0 rec0 [exEngA, exEngB, exNull]).getD 2 defaultItem).score =
        max 0 (min 100 (pyInt (
          WEIGHT_IDEA_QUALITY * (computeIdeaQuality ([exEngA, exEngB, exNull].getD 2 defaultItem) : ℚ) +
          WEIGHT_ENGAGEMENT * (DEFAULT_ENGAGEMENT : ℚ) +
          WEIGHT_MARKET_SIGNAL * (([exEngA, exEngB, exNull].getD 2 defaultItem).market_signal : ℚ) +
          WEIGHT_GROWTH * (computeGrowthScore ([exEngA, exEngB, exNull].getD 2 defaultItem).subreddit_growth : ℚ) +
          WEIGHT_RECENCY * (rec0 ([exEngA, exEngB, exNull].getD 2 defaultItem).date : ℚ) -
          UNKNOWN_ENGAGEMENT_PENALTY -
          (if ([exEngA, exEngB, exNull].getD 2 defaultItem).date_confidence = "low" then
            LOW_DATE_CONFIDENCE_PENALTY else 0))))) :=
  ⟨c3_normalization.1 [some 0, none, some 10] 0 [10] (by decide) (by decide),
   c3_normalization.2.1 [some 5, none, some 5] 5 [5] (by decide) (by decide),
   c3_normalization.2.2 lg0 rec0 [exEngA, exEngB, exNull] 2 (by decide) (by decide)⟩

/-- C4: the composite is the weighted sum of the five stored subscores, minus
10 for a null raw engagement, minus 10 for low date-confidence, clamped to
[0,100] after integer truncation. -/
theorem c4_composite (lg : ℤ → ℚ) (rec : Option String → ℤ)
    (items : List SaaSIdeaItem) (i : ℕ) (hi : i < items.length) :
    ((scoreSaasItems lg rec items).getD i defaultItem).score =
      max 0 (min 100 (pyInt (
        WEIGHT_IDEA_QUALITY * (((scoreSaasItems lg rec items).getD i defaultItem).subs.idea_quality : ℚ) +
        WEIGHT_ENGAGEMENT * (((scoreSaasItems lg rec items).getD i defaultItem).subs.engagement : ℚ) +
        WEIGHT_MARKET_SIGNAL * (((scoreSaasItems lg rec items).getD i defaultItem).subs.market_signal : ℚ) +
        WEIGHT_GROWTH * (((scoreSaasItems lg rec items).getD i defaultItem).subs.growth : ℚ) +
        WEIGHT_RECENCY * (((scoreSaasItems lg rec items).getD i defaultItem).subs.recency : ℚ) -
        (if rawEngagement lg (items.getD i defaultItem) = none then
          UNKNOWN_ENGAGEMENT_PENALTY else 0) -
        (if (items.getD i defaultItem).date_confidence = "low" then
          LOW_DATE_CONFIDENCE_PENALTY else 0)))) := by
  rw [scoreSaasItems_getD lg rec items i hi]
  unfold scoreOne
  dsimp only
  congr 2
  split_ifs with h1 h2 <;> ring_nf

/-- C4 witness: the worked example of the design document — subscores
(100, 50, 75, 40, 20) with no penalties give composite 65. -/
theorem c4_witness :
    (((scoreSaasItems lg0 rec20 [exScore]).getD 0 defaultItem).score =
      max 0 (min 100 (pyInt (
        WEIGHT_IDEA_QUALITY * (((scoreSaasItems lg0 rec20 [exScore]).getD 0 defaultItem).subs.idea_quality : ℚ) +
        WEIGHT_ENGAGEMENT * (((scoreSaasItems lg0 rec20 [exScore]).getD 0 defaultItem).subs.engagement : ℚ) +
        WEIGHT_MARKET_SIGNAL * (((scoreSaasItems lg0 rec20 [exScore]).getD 0 defaultItem).subs.market_signal : ℚ) +
        WEIGHT_GROWTH * (((scoreSaasItems lg0 rec20 [exScore]).getD 0 defaultItem).subs.growth : ℚ) +
        WEIGHT_RECENCY * (((scoreSaasItems lg0 rec20 [exScore]).getD 0 defaultItem).subs.recency : ℚ) -
        (if rawEngagement lg0 ([exScore].getD 0 defaultItem) = none then
          UNKNOWN_ENGAGEMENT_PENALTY else 0) -
        (if ([exScore].getD 0 defaultItem).date_confidence = "low" then
          LOW_DATE_CONFIDENCE_PENALTY else 0))))) ∧
    (scoreSaasItems lg0 rec20 [exScore]).map (fun it => (it.subs, it.score)) =
      [(⟨100, 50, 75, 40, 20⟩, 65)] :=
  ⟨c4_composite lg0 rec20 [exScore] 0 (by decide), by decide⟩

/-- C10: with the ratio field absent (and at least one primary field present)
the Reddit raw engagement formula substitutes 0.5 for the ratio, adding the
constant 0.05·(0.5·10) = 0.25. -/
theorem c10_missing_ratio (lg : ℤ → ℚ) (e : Engagement)
    (hratio : e.upvote_ratio = none)
    (hprim : ¬(e.score = none ∧ e.num_comments = none)) :
    computeRedditEngagementRaw lg (some e) =
      some (0.55 * log1pSafe lg e.score + 0.40 * log1pSafe lg e.num_comments +
        0.05 * ((1 / 2) * 10)) ∧
    (0.05 : ℚ) * ((1 / 2) * 10) = 0.25 := by
  constructor
  · unfold computeRedditEngagementRaw
    simp only [hratio, if_neg hprim]
    rfl
  · norm_num

theorem c10_witness :
    (computeRedditEngagementRaw lg0 (some ⟨some 5, none, none, none, none, none, none⟩) =
      some (0.55 * log1pSafe lg0 (some 5) + 0.40 * log1pSafe lg0 none +
        0.05 * ((1 / 2) * 10)) ∧
    (0.05 : ℚ) * ((1 / 2) * 10) = 0.25) :=
  c10_missing_ratio lg0 ⟨some 5, none, none, none, none, none, none⟩ rfl (by simp)

/-! ## Sorting lemmas -/

theorem charListLt_trans {a b c : List Char}
    (h1 : charListLt a b = true) (h2 : charListLt b c = true) :
    charListLt a c = true := by
  induction a generalizing b c with
  | nil =>
    cases b with
    | nil => simp [charListLt] at h1
    | cons b1 bs =>
      cases c with
      | nil => simp [charListLt] at h2
      | cons c1 cs => simp [charListLt]
  | cons a1 as ih =>
    cases b with
    | nil => simp [charListLt] at h1
    | cons b1 bs =>
      cases c with
      | nil => simp [charListLt] at h2
      | cons c1 cs =>
        simp only [charListLt] at h1 h2 ⊢
        by_cases hab : a1 = b1
        · by_cases hbc : b1 = c1
          · rw [if_pos hab] at h1
            rw [if_pos hbc] at h2
            rw [if_pos (hab.trans hbc)]
            exact ih h1 h2
          · rw [if_neg hbc] at h2
            have hlt : b1 < c1 := by simpa using h2
            have : a1 < c1 := hab ▸ hlt
            rw [if_neg (ne_of_lt this)]
            simpa using this
        · rw [if_neg hab] at h1
          have hlt1 : a1 < b1 := by simpa using h1
          by_cases hbc : b1 = c1
          · have : a1 < c1 := hbc ▸ hlt1
            rw [if_neg (ne_of_lt this)]
            simpa using this
          · rw [if_neg hbc] at h2
            have hlt2 : b1 < c1 := by simpa using h2
            have : a1 < c1 := lt_trans hlt1 hlt2
            rw [if_neg (ne_of_lt this)]
            simpa using this

theorem charListLt_of_ne {a b : List Char} (h : a ≠ b) :
    charListLt a b = true ∨ charListLt b a = true := by
  induction a generalizing b with
  | nil =>
    cases b with
    | nil => exact absurd rfl h
    | cons b1 bs => left; simp [charListLt]
  | cons a1 as ih =>
    cases b with
    | nil => right; simp [charListLt]
    | cons b1 bs =>
      by_cases hab : a1 = b1
      · have hne : as ≠ bs := by
          intro hcontra
          exact h (by rw [hab, hcontra])
        rcases ih hne with h1 | h1
        · left
          simpa [charListLt, if_pos hab] using h1
        · right
          simpa [charListLt, if_pos hab.symm] using h1
      · rcases lt_or_gt_of_ne hab with hlt | hlt
        · left
          simp [charListLt, if_neg hab, hlt]
        · right
          have : b1 ≠ a1 := fun hcontra => hab hcontra.symm
          simp [charListLt, if_neg this, hlt]

/-- The propositional shape of `keyLe`: lexicographic comparison. -/
theorem keyLe_iff (k1 k2 : ℤ × ℤ × ℕ × String) :
    keyLe k1 k2 = true ↔
      (k1.1 < k2.1 ∨ (k1.1 = k2.1 ∧
        (k1.2.1 < k2.2.1 ∨ (k1.2.1 = k2.2.1 ∧
          (k1.2.2.1 < k2.2.2.1 ∨ (k1.2.2.1 = k2.2.2.1 ∧
            (charListLt k1.2.2.2.data k2.2.2.2.data = true ∨ k1.2.2.2 = k2.2.2.2))))))) := by
  unfold keyLe
  by_cases h1 : k1.1 = k2.1
  · by_cases h2 : k1.2.1 = k2.2.1
    · by_cases h3 : k1.2.2.1 = k2.2.2.1
      · by_cases h4 : k1.2.2.2 = k2.2.2.2
        · simp [h1, h2, h3, h4]
        · simp [h1, h2, h3, h4]
      · simp [h1, h2, h3, lt_irrefl]
    · simp [h1, h2]
  · simp [h1]

theorem keyLe_total (k1 k2 : ℤ × ℤ × ℕ × String) :
    keyLe k1 k2 = true ∨ keyLe k2 k1 = true := by
  rw [keyLe_iff, keyLe_iff]
  rcases lt_trichotomy k1.1 k2.1 with h | h | h
  · left; left; exact h
  · rcases lt_trichotomy k1.2.1 k2.2.1 with h2 | h2 | h2
    · left; right; exact ⟨h, Or.inl h2⟩
    · rcases lt_trichotomy k1.2.2.1 k2.2.2.1 with h3 | h3 | h3
      · left; right; exact ⟨h, Or.inr ⟨h2, Or.inl h3⟩⟩
      · by_cases h4 : k1.2.2.2 = k2.2.2.2
        · left; right; exact ⟨h, Or.inr ⟨h2, Or.inr ⟨h3, Or.inr h4⟩⟩⟩
        · have hne : k1.2.2.2.data ≠ k2.2.2.2.data := by
            intro hcontra
            exact h4 (String.ext hcontra)
          rcases charListLt_of_ne hne with h5 | h5
          · left; right; exact ⟨h, Or.inr ⟨h2, Or.inr ⟨h3, Or.inl h5⟩⟩⟩
          · right; right; exact ⟨h.symm, Or.inr ⟨h2.symm, Or.inr ⟨h3.symm, Or.inl h5⟩⟩⟩
      · right; right; exact ⟨h.symm, Or.inr ⟨h2.symm, Or.inl h3⟩⟩
    · right; right; exact ⟨h.symm, Or.inl h2⟩
  · right; left; exact h

theorem keyLe_trans {k1 k2 k3 : ℤ × ℤ × ℕ × String}
    (h1 : keyLe k1 k2 = true) (h2 : keyLe k2 k3 = true) : keyLe k1 k3 = true := by
  rw [keyLe_iff] at h1 h2 ⊢
  rcases h1 with h1 | ⟨e1, h1⟩
  · rcases h2 with h2 | ⟨e2, h2⟩
    · left; exact lt_trans h1 h2
    · left; exact e2 ▸ h1
  · rcases h2 with h2 | ⟨e2, h2⟩
    · left; exact e1 ▸ h2
    · right
      refine ⟨e1.trans e2, ?_⟩
      rcases h1 with h1 | ⟨f1, h1⟩
      · rcases h2 with h2 | ⟨f2, h2⟩
        · left; exact lt_trans h1 h2
        · left; exact f2 ▸ h1
      · rcases h2 with h2 | ⟨f2, h2⟩
        · left; exact f1 ▸ h2
        · right
          refine ⟨f1.trans f2, ?_⟩
          rcases h1 with h1 | ⟨g1, h1⟩
          · rcases h2 with h2 | ⟨g2, h2⟩
            · left; exact lt_trans h1 h2
            · left; exact g2 ▸ h1
          · rcases h2 with h2 | ⟨g2, h2⟩
            · left; exact g1 ▸ h2
            · right
              refine ⟨g1.trans g2, ?_⟩
              rcases h1 with h1 | h1
              · rcases h2 with h2 | h2
                · left; exact charListLt_trans h1 h2
                · left; exact h2 ▸ h1
              · rcases h2 with h2 | h2
                · left; exact h1 ▸ h2
                · right; exact h1.trans h2

theorem insertKeyed_perm (x : (ℤ × ℤ × ℕ × String) × SaaSIdeaItem)
    (l : List ((ℤ × ℤ × ℕ × String) × SaaSIdeaItem)) :
    (insertKeyed x l).Perm (x :: l) := by
  induction l with
  | nil => simp [insertKeyed]
  | cons y ys ih =>
    simp only [insertKeyed]
    by_cases h : keyLe y.1 x.1 = true
    · rw [if_pos h]
      exact (ih.cons y).trans (List.Perm.swap x y ys)
    · rw [if_neg h]

theorem foldl_insertKeyed_perm (ks acc : List ((ℤ × ℤ × ℕ × String) × SaaSIdeaItem)) :
    (ks.foldl (fun acc x => insertKeyed x acc) acc).Perm (acc ++ ks) := by
  induction ks generalizing acc with
  | nil => simp
  | cons x rest ih =>
    have h1 := ih (insertKeyed x acc)
    have h2 : (insertKeyed x acc ++ rest).Perm ((x :: acc) ++ rest) :=
      (insertKeyed_perm x acc).append_right rest
    have h3 : ((x :: acc) ++ rest).Perm (acc ++ x :: rest) := List.perm_middle.symm
    exact (h1.trans h2).trans h3

theorem pairwise_insertKeyed (x : (ℤ × ℤ × ℕ × String) × SaaSIdeaItem)
    (l : List ((ℤ × ℤ × ℕ × String) × SaaSIdeaItem))
    (hl : l.Pairwise (fun a b => keyLe a.1 b.1 = true)) :
    (insertKeyed x l).Pairwise (fun a b => keyLe a.1 b.1 = true) := by
  induction l with
  | nil => simp [insertKeyed]
  | cons y ys ih =>
    rcases List.pairwise_cons.mp hl with ⟨hy, hys⟩
    simp only [insertKeyed]
    by_cases h : keyLe y.1 x.1 = true
    · rw [if_pos h]
      refine List.pairwise_cons.mpr ⟨?_, ih hys⟩
      intro z hz
      rcases List.mem_cons.mp ((insertKeyed_perm x ys).mem_iff.mp hz) with rfl | hz2
      · exact h
      · exact hy z hz2
    · rw [if_neg h]
      have hxy : keyLe x.1 y.1 = true := by
        rcases keyLe_total x.1 y.1 with h2 | h2
        · exact h2
        · exact absurd h2 h
      refine List.pairwise_cons.mpr ⟨?_, hl⟩
      intro z hz
      rcases List.mem_cons.mp hz with rfl | hz2
      · exact hxy
      · exact keyLe_trans hxy (hy z hz2)

theorem pairwise_foldl_insertKeyed (ks acc : List ((ℤ × ℤ × ℕ × String) × SaaSIdeaItem))
    (hacc : acc.Pairwise (fun a b => keyLe a.1 b.1 = true)) :
    (ks.foldl (fun acc x => insertKeyed x acc) acc).Pairwise
      (fun a b => keyLe a.1 b.1 = true) := by
  induction ks generalizing acc with
  | nil => exact hacc
  | cons x rest ih => exact ih _ (pairwise_insertKeyed x acc hacc)

theorem insertKeyed_of_all_le (x : (ℤ × ℤ × ℕ × String) × SaaSIdeaItem)
    (acc : List ((ℤ × ℤ × ℕ × String) × SaaSIdeaItem))
    (h : ∀ y ∈ acc, keyLe y.1 x.1 = true) :
    insertKeyed x acc = acc ++ [x] := by
  induction acc with
  | nil => simp [insertKeyed]
  | cons y ys ih =>
    simp only [insertKeyed]
    rw [if_pos (h y (List.mem_cons_self y ys))]
    rw [ih (fun z hz => h z (List.mem_cons_of_mem y hz))]
    rfl

theorem foldl_insertKeyed_of_sorted (ks : List ((ℤ × ℤ × ℕ × String) × SaaSIdeaItem))
    (hks : ks.Pairwise (fun a b => keyLe a.1 b.1 = true)) :
    ∀ acc, (∀ y ∈ acc, ∀ x ∈ ks, keyLe y.1 x.1 = true) →
    ks.foldl (fun acc x => insertKeyed x acc) acc = acc ++ ks := by
  induction ks with
  | nil => intro acc _; simp
  | cons x rest ih =>
    intro acc hcross
    rcases List.pairwise_cons.mp hks with ⟨hx, hrest⟩
    have h1 : insertKeyed x acc = acc ++ [x] :=
      insertKeyed_of_all_le x acc (fun y hy => hcross y hy x (List.mem_cons_self x rest))
    have h2 : ∀ y ∈ acc ++ [x], ∀ z ∈ rest, keyLe y.1 z.1 = true := by
      intro y hy z hz
      rcases List.mem_append.mp hy with hy2 | hy2
      · exact hcross y hy2 z (List.mem_cons_of_mem x hz)
      · rcases List.mem_singleton.mp hy2 with rfl
        exact hx z hz
    calc (x :: rest).foldl (fun acc x => insertKeyed x acc) acc
        = rest.foldl (fun acc x => insertKeyed x acc) (insertKeyed x acc) := rfl
      _ = rest.foldl (fun acc x => insertKeyed x acc) (acc ++ [x]) := by rw [h1]
      _ = (acc ++ [x]) ++ rest := ih hrest (acc ++ [x]) h2
      _ = acc ++ x :: rest := by simp

theorem keyItems_spec (items : List SaaSIdeaItem)
    (ks : List ((ℤ × ℤ × ℕ × String) × SaaSIdeaItem))
    (h : keyItems items = some ks) :
    ks.map Prod.snd = items ∧ ∀ p ∈ ks, sortKey p.2 = some p.1 := by
  induction items generalizing ks with
  | nil =>
    simp only [keyItems] at h
    cases h
    simp
  | cons it rest ih =>
    simp only [keyItems] at h
    cases hk : sortKey it with
    | none => rw [hk] at h; simp at h
    | some k =>
      rw [hk] at h
      cases hr : keyItems rest with
      | none => rw [hr] at h; simp at h
      | some krest =>
        rw [hr] at h
        simp only [Option.some.injEq] at h
        subst h
        rcases ih krest hr with ⟨hmap, hall⟩
        constructor
        · simp [hmap]
        · intro p hp
          rcases List.mem_cons.mp hp with rfl | hp2
          · exact hk
          · exact hall p hp2

theorem keyItems_isSome (items : List SaaSIdeaItem)
    (h : ∀ it ∈ items, (sortKey it).isSome) : (keyItems items).isSome := by
  induction items with
  | nil => simp [keyItems]
  | cons it rest ih =>
    have h1 := h it (List.mem_cons_self it rest)
    have h2 := ih (fun x hx => h x (List.mem_cons_of_mem it hx))
    simp only [keyItems]
    cases hk : sortKey it with
    | none => rw [hk] at h1; simp at h1
    | some k =>
      cases hr : keyItems rest with
      | none => rw [hr] at h2; simp at h2
      | some krest => simp

theorem keyItems_map_snd (ks : List ((ℤ × ℤ × ℕ × String) × SaaSIdeaItem))
    (h : ∀ p ∈ ks, sortKey p.2 = some p.1) :
    keyItems (ks.map Prod.snd) = some ks := by
  induction ks with
  | nil => simp [keyItems]
  | cons p rest ih =>
    simp only [List.map_cons, keyItems]
    rw [h p (List.mem_cons_self p rest), ih (fun q hq => h q (List.mem_cons_of_mem p hq))]

/-- C7, amended.  `sort_items` (on well-formed dates) returns a permutation of
its input, sorted by the key (score descending, date-number descending with
missing dates keyed as the oldest `0000-00-00`, reddit before other sources,
title ascending), and re-applying it to its own output returns the output
unchanged; but the key is only a total preorder, not a strict total order on
distinct-by-identity items: two items agreeing on score, date, source and
title receive equal keys even when their ids differ. -/
theorem c7_amended (items : List SaaSIdeaItem) :
    ((∀ it ∈ items, (sortKey it).isSome) → (sortItems items).isSome) ∧
    (∀ out, sortItems items = some out →
      out.Perm items ∧
      out.Pairwise (fun x y => ∀ kx ky, sortKey x = some kx → sortKey y = some ky →
        keyLe kx ky = true) ∧
      sortItems out = some out) := by
  constructor
  · intro h
    unfold sortItems
    rcases Option.isSome_iff_exists.mp (keyItems_isSome items h) with ⟨ks, hks⟩
    rw [hks]
    simp
  · intro out hout
    unfold sortItems at hout
    cases hki : keyItems items with
    | none => rw [hki] at hout; simp at hout
    | some ks =>
      rw [hki] at hout
      simp only [Option.some.injEq] at hout
      rcases keyItems_spec items ks hki with ⟨hmap, hall⟩
      have hperm : (ks.foldl (fun acc x => insertKeyed x acc) []).Perm ks := by
        simpa using foldl_insertKeyed_perm ks []
      have hsorted : (ks.foldl (fun acc x => insertKeyed x acc) []).Pairwise
          (fun a b => keyLe a.1 b.1 = true) :=
        pairwise_foldl_insertKeyed ks [] (by simp)
      have hall2 : ∀ p ∈ ks.foldl (fun acc x => insertKeyed x acc) [],
          sortKey p.2 = some p.1 :=
        fun p hp => hall p (hperm.mem_iff.mp hp)
      refine ⟨?_, ?_, ?_⟩
      · rw [← hout, ← hmap]
        exact hperm.map Prod.snd
      · rw [← hout]
        rw [List.pairwise_map]
        refine hsorted.imp_of_mem ?_
        intro a b ha hb hle kx ky hkx hky
        rw [hall2 a ha] at hkx
        rw [hall2 b hb] at hky
        cases hkx
        cases hky
        exact hle
      · have hki2 : keyItems out =
            some (ks.foldl (fun acc x => insertKeyed x acc) []) := by
          rw [← hout]
          exact keyItems_map_snd _ hall2
        unfold sortItems
        rw [hki2]
        dsimp only
        rw [foldl_insertKeyed_of_sorted _ hsorted [] (by simp)]
        simp [hout]

theorem c7_witness :
    ((∀ it ∈ [exS1, exS2, exS3], (sortKey it).isSome) →
      (sortItems [exS1, exS2, exS3]).isSome) ∧
    (∀ out, sortItems [exS1, exS2, exS3] = some out →
      out.Perm [exS1, exS2, exS3] ∧
      out.Pairwise (fun x y => ∀ kx ky, sortKey x = some kx → sortKey y = some ky →
        keyLe kx ky = true) ∧
      sortItems out = some out) :=
  c7_amended [exS1, exS2, exS3]

/-- C7 counterexample: two items with different ids but the same score, date,
source and title receive the same sort key — the key is not a strict total
order on distinct-by-identity items. -/
theorem c7_counterexample :
    sortKey exT1 = sortKey exT2 ∧ exT1 ≠ exT2 := by
  decide

/-- C9: `sort_key` calls `int(date.replace("-", ""))`, which raises
`ValueError` on a date string that is not all digits and dashes — `sort_items`
is not total on arbitrary date strings, contradicting the never-throw
degradation contract. -/
theorem c9_malformed_date_raises :
    sortKey exSbad = none ∧ sortItems [exS1, exSbad] = none := by
  decide

/-! ## Dedupe lemmas -/

theorem jaccardSimilarity_comm (s1 s2 : Finset String) :
    jaccardSimilarity s1 s2 = jaccardSimilarity s2 s1 := by
  unfold jaccardSimilarity
  rw [Finset.inter_comm, Finset.union_comm]
  by_cases h : s1.card = 0 ∨ s2.card = 0
  · rw [if_pos h, if_pos (Or.symm h)]
  · rw [if_neg h, if_neg (fun hc => h (Or.symm hc))]

theorem mem_range_drop {n m x : ℕ} :
    x ∈ (List.range n).drop m ↔ m ≤ x ∧ x < n := by
  constructor
  · intro hx
    rcases List.mem_iff_getElem.mp hx with ⟨k, hk, hget⟩
    have hlen := hk
    rw [List.length_drop, List.length_range] at hlen
    rw [List.getElem_drop, List.getElem_range] at hget
    omega
  · intro h
    apply List.mem_iff_getElem.mpr
    refine ⟨x - m, ?_, ?_⟩
    · rw [List.length_drop, List.length_range]
      omega
    · rw [List.getElem_drop, List.getElem_range]
      omega

theorem ngrams_title_getD (items : List SaaSIdeaItem) {k : ℕ} (hk : k < items.length) :
    (items.map (fun it => getNgrams it.title 3)).getD k ∅ =
      getNgrams (items.getD k defaultItem).title 3 := by
  rw [List.getD_eq_getElem _ _ (by simpa using hk), List.getElem_map,
      List.getD_eq_getElem _ _ hk]

theorem mem_findDuplicates {items : List SaaSIdeaItem} {thr : ℚ} {i j : ℕ} :
    (i, j) ∈ findDuplicates items thr ↔
      i < j ∧ j < items.length ∧
      thr ≤ jaccardSimilarity (getNgrams (items.getD i defaultItem).title 3)
        (getNgrams (items.getD j defaultItem).title 3) := by
  unfold findDuplicates
  dsimp only
  rw [List.mem_flatMap]
  constructor
  · rintro ⟨a, ha, hmem⟩
    rw [List.mem_range] at ha
    rcases List.mem_filterMap.mp hmem with ⟨b, hb, hif⟩
    rcases mem_range_drop.mp hb with ⟨hb1, hb2⟩
    by_cases hc : thr ≤ jaccardSimilarity
        ((items.map (fun it => getNgrams it.title 3)).getD a ∅)
        ((items.map (fun it => getNgrams it.title 3)).getD b ∅)
    · rw [if_pos hc] at hif
      cases hif
      have hij : i < j := by omega
      have hjn : j < items.length := hb2
      rw [ngrams_title_getD items (lt_trans hij hjn), ngrams_title_getD items hjn] at hc
      exact ⟨hij, hjn, hc⟩
    · rw [if_neg hc] at hif
      cases hif
  · rintro ⟨hij, hjn, hsim⟩
    refine ⟨i, List.mem_range.mpr (lt_trans hij hjn), ?_⟩
    apply List.mem_filterMap.mpr
    refine ⟨j, mem_range_drop.mpr ⟨hij, hjn⟩, ?_⟩
    rw [ngrams_title_getD items (lt_trans hij hjn), ngrams_title_getD items hjn]
    rw [if_pos hsim]

theorem removal_foldl_mono (items : List SaaSIdeaItem) (pairs : List (ℕ × ℕ)) :
    ∀ (s : Finset ℕ) (x : ℕ), x ∈ s →
      x ∈ pairs.foldl
        (fun s ij =>
          if (items.getD ij.1 defaultItem).score ≥ (items.getD ij.2 defaultItem).score then
            insert ij.2 s
          else insert ij.1 s) s := by
  induction pairs with
  | nil => intro s x hx; exact hx
  | cons q rest ih =>
    intro s x hx
    rw [List.foldl_cons]
    apply ih
    dsimp only
    split
    · exact Finset.mem_insert_of_mem hx
    · exact Finset.mem_insert_of_mem hx

theorem removal_foldl_covers (items : List SaaSIdeaItem) (pairs : List (ℕ × ℕ)) :
    ∀ (s : Finset ℕ), ∀ p ∈ pairs,
      ((items.getD p.1 defaultItem).score ≥ (items.getD p.2 defaultItem).score →
        p.2 ∈ pairs.foldl
          (fun s ij =>
            if (items.getD ij.1 defaultItem).score ≥ (items.getD ij.2 defaultItem).score then
              insert ij.2 s
            else insert ij.1 s) s) ∧
      (¬((items.getD p.1 defaultItem).score ≥ (items.getD p.2 defaultItem).score) →
        p.1 ∈ pairs.foldl
          (fun s ij =>
            if (items.getD ij.1 defaultItem).score ≥ (items.getD ij.2 defaultItem).score then
              insert ij.2 s
            else insert ij.1 s) s) := by
  induction pairs with
  | nil => intro s p hp; exact absurd hp (List.not_mem_nil p)
  | cons q rest ih =>
    intro s p hp
    rcases List.mem_cons.mp hp with rfl | hp2
    · constructor
      · intro hge
        rw [List.foldl_cons]
        apply removal_foldl_mono
        dsimp only
        rw [if_pos hge]
        exact Finset.mem_insert_self _ _
      · intro hlt
        rw [List.foldl_cons]
        apply removal_foldl_mono
        dsimp only
        rw [if_neg hlt]
        exact Finset.mem_insert_self _ _
    · rw [List.foldl_cons]
      exact ih _ p hp2

theorem removal_foldl_cases (items : List SaaSIdeaItem) (pairs : List (ℕ × ℕ)) :
    ∀ (s : Finset ℕ) (x : ℕ),
      x ∈ pairs.foldl
        (fun s ij =>
          if (items.getD ij.1 defaultItem).score ≥ (items.getD ij.2 defaultItem).score then
            insert ij.2 s
          else insert ij.1 s) s →
      x ∈ s ∨ ∃ p ∈ pairs,
        ((items.getD p.1 defaultItem).score ≥ (items.getD p.2 defaultItem).score ∧ x = p.2) ∨
        (¬((items.getD p.1 defaultItem).score ≥ (items.getD p.2 defaultItem).score) ∧ x = p.1) := by
  induction pairs with
  | nil => intro s x hx; exact Or.inl hx
  | cons q rest ih =>
    intro s x hx
    rw [List.foldl_cons] at hx
    rcases ih _ x hx with hbase | ⟨p, hp, hcase⟩
    · by_cases hge : (items.getD q.1 defaultItem).score ≥ (items.getD q.2 defaultItem).score
      · rw [if_pos hge] at hbase
        rcases Finset.mem_insert.mp hbase with rfl | hs
        · exact Or.inr ⟨q, List.mem_cons_self q rest, Or.inl ⟨hge, rfl⟩⟩
        · exact Or.inl hs
      · rw [if_neg hge] at hbase
        rcases Finset.mem_insert.mp hbase with rfl | hs
        · exact Or.inr ⟨q, List.mem_cons_self q rest, Or.inr ⟨hge, rfl⟩⟩
        · exact Or.inl hs
    · exact Or.inr ⟨p, List.mem_cons_of_mem q hp, hcase⟩

theorem mem_removalSet_iff {items : List SaaSIdeaItem} {pairs : List (ℕ × ℕ)} {x : ℕ}
    (hx : x ∈ dedupeRemovalSet items pairs) :
    ∃ p ∈ pairs,
      ((items.getD p.1 defaultItem).score ≥ (items.getD p.2 defaultItem).score ∧ x = p.2) ∨
      (¬((items.getD p.1 defaultItem).score ≥ (items.getD p.2 defaultItem).score) ∧ x = p.1) := by
  rcases removal_foldl_cases items pairs ∅ x hx with h | h
  · exact absurd h (Finset.not_mem_empty x)
  · exact h

/-- The survivors of one dedup pass are pairwise below the threshold. -/
theorem dedupeSaas_pairwise (items : List SaaSIdeaItem) (thr : ℚ) :
    (dedupeSaas items thr).Pairwise (fun x y =>
      jaccardSimilarity (getNgrams x.title 3) (getNgrams y.title 3) < thr) := by
  unfold dedupeSaas
  split
  · case isTrue h =>
    cases items with
    | nil => exact List.Pairwise.nil
    | cons a l =>
      cases l with
      | nil => simp
      | cons b l2 => simp at h
  · case isFalse h =>
    rw [List.pairwise_map]
    have henum : items.enum.Pairwise (fun p q =>
        p.1 < q.1 ∧ q.1 < items.length ∧
        p.2 = items.getD p.1 defaultItem ∧ q.2 = items.getD q.1 defaultItem) := by
      rw [List.pairwise_iff_getElem]
      intro a b ha hb hab
      rw [List.getElem_enum, List.getElem_enum]
      have hb2 : b < items.length := by simpa [List.enum_length] using hb
      have ha2 : a < items.length := by simpa [List.enum_length] using ha
      exact ⟨hab, hb2, (List.getD_eq_getElem _ _ ha2).symm, (List.getD_eq_getElem _ _ hb2).symm⟩
    refine List.Pairwise.imp_of_mem ?_ (henum.filter _)
    intro p q hp hq hR
    rcases hR with ⟨hlt, hqn, hp2, hq2⟩
    have hpR : p.1 ∉ dedupeRemovalSet items (findDuplicates items thr) := by
      have := (List.mem_filter.mp hp).2
      simpa using this
    have hqR : q.1 ∉ dedupeRemovalSet items (findDuplicates items thr) := by
      have := (List.mem_filter.mp hq).2
      simpa using this
    rw [hp2, hq2]
    by_contra hcontra
    push_neg at hcontra
    have hdup : (p.1, q.1) ∈ findDuplicates items thr :=
      mem_findDuplicates.mpr ⟨hlt, hqn, hcontra⟩
    rcases removal_foldl_covers items (findDuplicates items thr) ∅ (p.1, q.1) hdup with
      ⟨hcov1, hcov2⟩
    by_cases hge : (items.getD p.1 defaultItem).score ≥ (items.getD q.1 defaultItem).score
    · exact hqR (hcov1 hge)
    · exact hpR (hcov2 hge)

theorem findDuplicates_eq_nil {l : List SaaSIdeaItem} {thr : ℚ}
    (h : l.Pairwise (fun x y =>
      jaccardSimilarity (getNgrams x.title 3) (getNgrams y.title 3) < thr)) :
    findDuplicates l thr = [] := by
  rw [List.eq_nil_iff_forall_not_mem]
  intro p hp
  rcases p with ⟨i, j⟩
  rcases mem_findDuplicates.mp hp with ⟨hij, hjn, hsim⟩
  rw [List.pairwise_iff_getElem] at h
  have := h i j (lt_trans hij hjn) hjn hij
  rw [List.getD_eq_getElem _ _ (lt_trans hij hjn), List.getD_eq_getElem _ _ hjn] at hsim
  exact absurd hsim (not_le.mpr this)

/-- C8: deduplication is idempotent, and short inputs pass through. -/
theorem c8_idempotent (items : List SaaSIdeaItem) (thr : ℚ) :
    dedupeSaas (dedupeSaas items thr) thr = dedupeSaas items thr ∧
    (items.length ≤ 1 → dedupeSaas items thr = items) := by
  constructor
  · have hpw := dedupeSaas_pairwise items thr
    generalize hout : dedupeSaas items thr = out
    rw [hout] at hpw
    by_cases hlen : out.length ≤ 1
    · unfold dedupeSaas
      rw [if_pos hlen]
    · unfold dedupeSaas
      rw [if_neg hlen]
      dsimp only
      rw [findDuplicates_eq_nil hpw]
      have hempty : dedupeRemovalSet out [] = ∅ := rfl
      rw [hempty]
      have hfilter : out.enum.filter
          (fun p => decide (p.1 ∉ (∅ : Finset ℕ))) = out.enum := by
        rw [List.filter_eq_self]
        intro a _
        simp
      rw [hfilter, List.enum_map_snd]
  · intro h
    unfold dedupeSaas
    rw [if_pos h]

theorem c8_witness :
    dedupeSaas (dedupeSaas exD (7/10)) (7/10) = dedupeSaas exD (7/10) ∧
    dedupeSaas [exNull] (7/10) = [exNull] :=
  ⟨(c8_idempotent exD (7/10)).1, (c8_idempotent [exNull] (7/10)).2 (by decide)⟩

/-- C5, amended.  Deduplication never increases the item count; each
duplicate pair marks for removal only its lower-scored member (the
higher-indexed one on a tie) — though the higher-scored member of one pair
may still be removed on account of a different pair — and an item strictly
higher-scored than every other item similar to it (in particular the unique
top-scored item of any duplicate cluster) is never dropped. -/
theorem c5_amended (items : List SaaSIdeaItem) (thr : ℚ) :
    (dedupeSaas items thr).length ≤ items.length ∧
    (∀ i j : ℕ, (i, j) ∈ findDuplicates items thr →
      ((items.getD i defaultItem).score ≥ (items.getD j defaultItem).score →
        j ∈ dedupeRemovalSet items (findDuplicates items thr)) ∧
      (¬((items.getD i defaultItem).score ≥ (items.getD j defaultItem).score) →
        i ∈ dedupeRemovalSet items (findDuplicates items thr))) ∧
    (∀ k : ℕ, k < items.length →
      (∀ m : ℕ, m < items.length → m ≠ k →
        thr ≤ jaccardSimilarity (getNgrams (items.getD k defaultItem).title 3)
          (getNgrams (items.getD m defaultItem).title 3) →
        (items.getD m defaultItem).score < (items.getD k defaultItem).score) →
      items.getD k defaultItem ∈ dedupeSaas items thr) := by
  refine ⟨?_, ?_, ?_⟩
  · unfold dedupeSaas
    split
    · exact le_refl _
    · calc ((items.enum.filter
            (fun p => p.1 ∉ dedupeRemovalSet items (findDuplicates items thr))).map
              Prod.snd).length
          = (items.enum.filter
            (fun p => p.1 ∉ dedupeRemovalSet items (findDuplicates items thr))).length := by
            rw [List.length_map]
        _ ≤ items.enum.length := List.length_filter_le _ _
        _ = items.length := List.enum_length
  · intro i j hij
    exact removal_foldl_covers items (findDuplicates items thr) ∅ (i, j) hij
  · intro k hk hmax
    unfold dedupeSaas
    split
    · exact getD_mem hk
    · have hkR : k ∉ dedupeRemovalSet items (findDuplicates items thr) := by
        intro hkmem
        rcases mem_removalSet_iff hkmem with ⟨p, hp, hcase⟩
        rcases mem_findDuplicates.mp hp with ⟨hij, hjn, hsim⟩
        rcases hcase with ⟨hge, rfl⟩ | ⟨hlt, rfl⟩
        · have hm := hmax p.1 (lt_trans hij hjn) (Nat.ne_of_lt hij)
            (by rw [jaccardSimilarity_comm]; exact hsim)
          omega
        · have hm := hmax p.2 hjn (Ne.symm (Nat.ne_of_lt hij)) hsim
          omega
      dsimp only
      apply List.mem_map.mpr
      refine ⟨(k, items.getD k defaultItem), ?_, rfl⟩
      apply List.mem_filter.mpr
      constructor
      · apply List.mem_iff_getElem.mpr
        refine ⟨k, by simpa [List.enum_length] using hk, ?_⟩
        rw [List.getElem_enum, List.getD_eq_getElem _ _ hk]
      · simpa using hkR

theorem c5_witness :
    (dedupeSaas exD (7/10)).length ≤ exD.length ∧
    ((exD.getD 0 defaultItem).score ≥ (exD.getD 1 defaultItem).score →
      1 ∈ dedupeRemovalSet exD (findDuplicates exD (7/10))) ∧
    exD.getD 2 defaultItem ∈ dedupeSaas exD (7/10) :=
  ⟨(c5_amended exD (7/10)).1,
   ((c5_amended exD (7/10)).2.1 0 1 (by decide)).1,
   (c5_amended exD (7/10)).2.2 2 (by decide) (by decide)⟩

/-- C5 counterexample: in `exD`, items 0 and 1 are a duplicate pair whose
higher-scored member is item 0, yet item 0 is removed (it loses the other
pair (0,2)), so "never removes the highest-scored member of any duplicate
pair" fails as stated. -/
theorem c5_counterexample :
    (0, 1) ∈ findDuplicates exD (7/10) ∧
    (exD.getD 1 defaultItem).score < (exD.getD 0 defaultItem).score ∧
    exD.getD 0 defaultItem ∉ dedupeSaas exD (7/10) := by
  decide

/-! ## Union-find verification layer (for `cluster_ideas`) -/

theorem parentGet_of_ge {p : List ℕ} {x : ℕ} (h : p.length ≤ x) : parentGet p x = x := by
  unfold parentGet
  rw [List.getD_eq_getElem?_getD, List.getElem?_eq_none (by simpa using h)]
  rfl

theorem parentGet_set {p : List ℕ} {i : ℕ} (v y : ℕ) (hi : i < p.length) :
    parentGet (p.set i v) y = if y = i then v else parentGet p y := by
  unfold parentGet
  by_cases h : y = i
  · subst h
    rw [if_pos rfl, List.getD_eq_getElem?_getD, List.getElem?_set_self hi]
    rfl
  · rw [if_neg h, List.getD_eq_getElem?_getD, List.getElem?_set_ne (fun hc => h hc.symm),
      ← List.getD_eq_getElem?_getD]

theorem iterate_lt {p : List ℕ} (hb : ∀ i, i < p.length → parentGet p i < p.length)
    {x : ℕ} (hx : x < p.length) (k : ℕ) : (parentGet p)^[k] x < p.length := by
  induction k with
  | zero => exact hx
  | succ k ih =>
    rw [Function.iterate_succ_apply']
    exact hb _ ih

theorem isRoot_iterate {p : List ℕ} {r : ℕ} (hr : isRoot p r) (k : ℕ) :
    (parentGet p)^[k] r = r := by
  induction k with
  | zero => rfl
  | succ k ih =>
    rw [Function.iterate_succ_apply', ih]
    exact hr

theorem iterate_stabilize {p : List ℕ} {x : ℕ} {k : ℕ}
    (hk : isRoot p ((parentGet p)^[k] x)) {m : ℕ} (hm : k ≤ m) :
    (parentGet p)^[m] x = (parentGet p)^[k] x := by
  have : m = (m - k) + k := by omega
  rw [this, Function.iterate_add_apply]
  exact isRoot_iterate hk (m - k)

theorem iterate_periodic {p : List ℕ} {y : ℕ} {c : ℕ} (hc : (parentGet p)^[c] y = y)
    (q r : ℕ) : (parentGet p)^[c * q + r] y = (parentGet p)^[r] y := by
  induction q with
  | zero => simp
  | succ q ih =>
    have : c * (q + 1) + r = (c * q + r) + c := by ring
    rw [this, Function.iterate_add_apply, hc, ih]

/-- A repeated chain value before the first fixpoint is impossible: the
chain would be periodic and the fixpoint would appear earlier. -/
theorem hit_earlier {p : List ℕ} {x d a b : ℕ}
    (hd : isRoot p ((parentGet p)^[d] x))
    (hmin : ∀ j, j < d → ¬ isRoot p ((parentGet p)^[j] x))
    (hab : a < b) (hbd : b ≤ d)
    (heq : (parentGet p)^[a] x = (parentGet p)^[b] x) : False := by
  have hper : (parentGet p)^[b - a] ((parentGet p)^[a] x) = (parentGet p)^[a] x := by
    rw [← Function.iterate_add_apply]
    rw [show b - a + a = b by omega]
    exact heq.symm
  have hcper : 0 < b - a := by omega
  have h3 : (parentGet p)^[d - a] ((parentGet p)^[a] x)
      = (parentGet p)^[(d - a) % (b - a)] ((parentGet p)^[a] x) := by
    conv_lhs => rw [show d - a = (b - a) * ((d - a) / (b - a)) + (d - a) % (b - a)
      from (Nat.div_add_mod _ _).symm]
    exact iterate_periodic hper _ _
  have hidx : (parentGet p)^[a + (d - a) % (b - a)] x = (parentGet p)^[d] x := by
    calc (parentGet p)^[a + (d - a) % (b - a)] x
        = (parentGet p)^[(d - a) % (b - a)] ((parentGet p)^[a] x) := by
          rw [Nat.add_comm, Function.iterate_add_apply]
      _ = (parentGet p)^[d - a] ((parentGet p)^[a] x) := h3.symm
      _ = (parentGet p)^[d] x := by
          rw [← Function.iterate_add_apply]
          congr 1
          omega
  have hlt : a + (d - a) % (b - a) < d := by
    have := Nat.mod_lt (d - a) hcper
    omega
  exact hmin _ hlt (by rw [hidx]; exact hd)

/-- Under the invariant, a parent chain reaches its fixpoint within
`|p|` steps (pigeonhole on the in-range chain values). -/
theorem fix_within {p : List ℕ} (hp : UFInv p) (x : ℕ) :
    isRoot p ((parentGet p)^[p.length] x) := by
  by_cases hx : x < p.length
  case neg =>
    have hroot : isRoot p x := parentGet_of_ge (by omega)
    rw [isRoot_iterate hroot]
    exact hroot
  case pos =>
    classical
    have hex : ∃ k, isRoot p ((parentGet p)^[k] x) := hp.2 x
    set d := Nat.find hex with hdd
    have hd : isRoot p ((parentGet p)^[d] x) := Nat.find_spec hex
    have hmin : ∀ j, j < d → ¬ isRoot p ((parentGet p)^[j] x) :=
      fun j hj => Nat.find_min hex hj
    have hdle : d ≤ p.length := by
      by_contra hgt
      push_neg at hgt
      have hinj : Function.Injective
          (fun a : Fin (d + 1) => (⟨(parentGet p)^[a.1] x,
            iterate_lt hp.1 hx a.1⟩ : Fin p.length)) := by
        intro a b hab
        simp only [Fin.mk.injEq] at hab
        rcases Nat.lt_trichotomy a.1 b.1 with hlt | heqq | hlt
        · exact absurd (hit_earlier hd hmin hlt (by omega) hab) (fun h => h)
        · exact Fin.ext heqq
        · exact absurd (hit_earlier hd hmin hlt (by omega) hab.symm) (fun h => h)
      have hcard := Fintype.card_le_of_injective _ hinj
      simp only [Fintype.card_fin] at hcard
      omega
    calc parentGet p ((parentGet p)^[p.length] x)
        = parentGet p ((parentGet p)^[d] x) := by rw [iterate_stabilize hd hdle]
      _ = (parentGet p)^[d] x := hd
      _ = (parentGet p)^[p.length] x := (iterate_stabilize hd hdle).symm

theorem rootF_isRoot {p : List ℕ} (hp : UFInv p) (x : ℕ) : isRoot p (rootF p x) := by
  unfold rootF
  rw [iterate_stabilize (fix_within hp x) (by omega)]
  exact fix_within hp x

theorem rootF_eq_iterate_len {p : List ℕ} (hp : UFInv p) (x : ℕ) :
    rootF p x = (parentGet p)^[p.length] x := by
  unfold rootF
  exact iterate_stabilize (fix_within hp x) (by omega)

theorem iterate_eq_rootF {p : List ℕ} (hp : UFInv p) (x : ℕ) {m : ℕ}
    (hm : p.length ≤ m) : (parentGet p)^[m] x = rootF p x := by
  rw [rootF_eq_iterate_len hp]
  exact iterate_stabilize (fix_within hp x) hm

theorem rootF_iterate {p : List ℕ} (hp : UFInv p) (x : ℕ) (j : ℕ) :
    rootF p ((parentGet p)^[j] x) = rootF p x := by
  unfold rootF
  rw [← Function.iterate_add_apply]
  rw [iterate_eq_rootF hp x (show p.length ≤ 2 * p.length + j by omega)]
  exact (iterate_eq_rootF hp x (by omega)).symm

theorem rootF_rootF {p : List ℕ} (hp : UFInv p) (x : ℕ) :
    rootF p (rootF p x) = rootF p x := by
  have := rootF_isRoot hp x
  unfold rootF
  rw [isRoot_iterate]
  exact rootF_isRoot hp x

theorem rootF_lt {p : List ℕ} (hp : UFInv p) {x : ℕ} (hx : x < p.length) :
    rootF p x < p.length :=
  iterate_lt hp.1 hx (2 * p.length)

theorem rootF_of_root {p : List ℕ} {r : ℕ} (hr : isRoot p r) : rootF p r = r := by
  unfold rootF
  exact isRoot_iterate hr _

/-- One path-halving write, chain view: every `k`-step parent chain of the
updated array equals an `m`-step chain, `m ≥ k`, of the original. -/
theorem set_grandparent_chain {p : List ℕ} {i : ℕ} (hi : i < p.length) :
    ∀ (k x : ℕ), ∃ m, k ≤ m ∧
      (parentGet (p.set i (parentGet p (parentGet p i))))^[k] x =
        (parentGet p)^[m] x := by
  intro k
  induction k with
  | zero => intro x; exact ⟨0, le_refl _, rfl⟩
  | succ k ih =>
    intro x
    rcases ih x with ⟨m, hm, heq⟩
    rw [Function.iterate_succ_apply', heq]
    by_cases hy : (parentGet p)^[m] x = i
    · refine ⟨m + 2, by omega, ?_⟩
      rw [parentGet_set _ _ hi, if_pos hy]
      rw [show m + 2 = 2 + m by omega, Function.iterate_add_apply, hy]
      rfl
    · refine ⟨m + 1, by omega, ?_⟩
      rw [parentGet_set _ _ hi, if_neg hy]
      rw [Function.iterate_succ_apply']

/-- Path halving preserves length, the invariant, and every root. -/
theorem set_grandparent_spec {p : List ℕ} {i : ℕ} (hp : UFInv p) (hi : i < p.length)
    (hni : parentGet p i ≠ i) :
    (p.set i (parentGet p (parentGet p i))).length = p.length ∧
    UFInv (p.set i (parentGet p (parentGet p i))) ∧
    (∀ x, rootF (p.set i (parentGet p (parentGet p i))) x = rootF p x) := by
  have hlen : (p.set i (parentGet p (parentGet p i))).length = p.length :=
    List.length_set p i _
  have hroot_pres : ∀ x, rootF (p.set i (parentGet p (parentGet p i))) x = rootF p x := by
    intro x
    unfold rootF
    rcases set_grandparent_chain hi (2 * (p.set i (parentGet p (parentGet p i))).length) x
      with ⟨m, hm, heq⟩
    rw [heq]
    have hm2 : p.length ≤ m := by
      rw [hlen] at hm
      omega
    rw [iterate_eq_rootF hp x hm2]
    exact (iterate_eq_rootF hp x (by omega)).symm
  have hbound : ∀ j, j < (p.set i (parentGet p (parentGet p i))).length →
      parentGet (p.set i (parentGet p (parentGet p i))) j <
        (p.set i (parentGet p (parentGet p i))).length := by
    intro j hj
    rw [hlen] at hj
    rw [parentGet_set _ _ hi, hlen]
    split
    · exact hp.1 _ (hp.1 _ hi)
    · exact hp.1 _ hj
  have hfix2 : ∀ x, ∃ k, isRoot (p.set i (parentGet p (parentGet p i)))
      ((parentGet (p.set i (parentGet p (parentGet p i))))^[k] x) := by
    intro x
    refine ⟨2 * (p.set i (parentGet p (parentGet p i))).length, ?_⟩
    rw [show (parentGet (p.set i (parentGet p (parentGet p i))))^[2 *
      (p.set i (parentGet p (parentGet p i))).length] x =
      rootF (p.set i (parentGet p (parentGet p i))) x from rfl]
    rw [hroot_pres x]
    have hr := rootF_isRoot hp x
    unfold isRoot
    rw [parentGet_set _ _ hi]
    rw [if_neg ?_]
    · exact hr
    · intro hcontra
      rw [hcontra] at hr
      exact hni hr
  exact ⟨hlen, ⟨hbound, hfix2⟩, hroot_pres⟩

/-- `_find_root` with enough fuel returns the root without changing any
root assignment, and keeps the invariant. -/
theorem findRoot_spec : ∀ (fuel : ℕ) (p : List ℕ) (i : ℕ), UFInv p →
    isRoot p ((parentGet p)^[fuel] i) →
    (findRoot fuel p i).2 = rootF p i ∧
    (findRoot fuel p i).1.length = p.length ∧
    UFInv (findRoot fuel p i).1 ∧
    (∀ x, rootF (findRoot fuel p i).1 x = rootF p x) := by
  intro fuel
  induction fuel with
  | zero =>
    intro p i hp hfix
    refine ⟨?_, rfl, hp, fun x => rfl⟩
    show i = rootF p i
    exact (rootF_of_root hfix).symm
  | succ fuel ih =>
    intro p i hp hfix
    by_cases hroot : parentGet p i = i
    · rw [findRoot, if_pos hroot]
      exact ⟨(rootF_of_root hroot).symm, rfl, hp, fun x => rfl⟩
    · have hi : i < p.length := by
        by_contra hge
        exact hroot (parentGet_of_ge (by omega))
      rcases set_grandparent_spec hp hi hroot with ⟨hlen, hp2, hpres⟩
      have hfix2 : isRoot (p.set i (parentGet p (parentGet p i)))
          ((parentGet (p.set i (parentGet p (parentGet p i))))^[fuel]
            (parentGet p (parentGet p i))) := by
        rcases set_grandparent_chain hi fuel (parentGet p (parentGet p i))
          with ⟨m, hm, heq⟩
        rw [heq]
        have h2 : (parentGet p)^[m] (parentGet p (parentGet p i)) =
            (parentGet p)^[m + 2] i := by
          rw [Function.iterate_add_apply]
          rfl
        rw [h2, iterate_stabilize hfix (by omega)]
        unfold isRoot
        rw [parentGet_set _ _ hi]
        rw [if_neg ?_]
        · exact hfix
        · intro hcontra
          rw [hcontra] at hfix
          exact hroot hfix
      rcases ih (p.set i (parentGet p (parentGet p i)))
        (parentGet p (parentGet p i)) hp2 hfix2 with ⟨hr2, hl2, hi2, hpr2⟩
      rw [findRoot, if_neg hroot]
      dsimp only
      refine ⟨?_, by rw [hl2, hlen], hi2, fun x => (hpr2 x).trans (hpres x)⟩
      rw [hr2, hpres (parentGet p (parentGet p i))]
      rw [show parentGet p (parentGet p i) = (parentGet p)^[2] i from rfl]
      exact rootF_iterate hp i 2

/-- Linking root `rb` under root `ra`: the new root map redirects the class
of `rb` to `ra` and leaves every other class unchanged. -/
theorem link_root {p : List ℕ} (hp : UFInv p) {ra rb : ℕ}
    (hra : isRoot p ra) (hrb : isRoot p rb) (hne : ra ≠ rb) (hrbn : rb < p.length) :
    ∀ x, rootF (p.set rb ra) x = if rootF p x = rb then ra else rootF p x := by
  have hlen : (p.set rb ra).length = p.length := List.length_set p rb ra
  have hf3 : ∀ y, parentGet (p.set rb ra) y = if y = rb then ra else parentGet p y :=
    fun y => parentGet_set _ _ hrbn
  have hra3 : isRoot (p.set rb ra) ra := by
    unfold isRoot
    rw [hf3, if_neg hne]
    exact hra
  have hC1 : ∀ (k x : ℕ), (parentGet (p.set rb ra))^[k] x = (parentGet p)^[k] x ∨
      (parentGet (p.set rb ra))^[k] x = ra := by
    intro k
    induction k with
    | zero => intro x; exact Or.inl rfl
    | succ k ih =>
      intro x
      rcases ih x with h | h
      · rw [Function.iterate_succ_apply', h, hf3]
        by_cases hy : (parentGet p)^[k] x = rb
        · rw [if_pos hy]
          exact Or.inr rfl
        · rw [if_neg hy]
          left
          rw [Function.iterate_succ_apply']
      · rw [Function.iterate_succ_apply', h, hf3, if_neg hne]
        exact Or.inr hra
  have hC2 : ∀ (x : ℕ), (∀ k, (parentGet p)^[k] x ≠ rb) →
      ∀ k, (parentGet (p.set rb ra))^[k] x = (parentGet p)^[k] x := by
    intro x hx k
    induction k with
    | zero => rfl
    | succ k ih =>
      rw [Function.iterate_succ_apply', ih, hf3, if_neg (hx k),
        Function.iterate_succ_apply']
  intro x
  by_cases hcase : rootF p x = rb
  · rw [if_pos hcase]
    have hnx : (parentGet p)^[p.length] x = rb := by
      rw [← rootF_eq_iterate_len hp]
      exact hcase
    have hstep : (parentGet (p.set rb ra))^[p.length + 1] x = ra := by
      rcases hC1 p.length x with h | h
      · rw [Function.iterate_succ_apply', h, hnx, hf3, if_pos rfl]
      · rw [Function.iterate_succ_apply', h, hf3, if_neg hne]
        exact hra
    unfold rootF
    rw [hlen]
    rw [iterate_stabilize (by rw [hstep]; exact hra3) (by omega), hstep]
  · rw [if_neg hcase]
    have hnever : ∀ k, (parentGet p)^[k] x ≠ rb := by
      intro k hcontra
      apply hcase
      have h1 := rootF_iterate hp x k
      rw [hcontra, rootF_of_root hrb] at h1
      exact h1.symm
    unfold rootF
    rw [hlen, hC2 x hnever (2 * p.length)]

/-- Linking preserves the invariant. -/
theorem link_inv {p : List ℕ} (hp : UFInv p) {ra rb : ℕ}
    (hra : isRoot p ra) (hrb : isRoot p rb) (hne : ra ≠ rb)
    (hran : ra < p.length) (hrbn : rb < p.length) :
    UFInv (p.set rb ra) := by
  have hlen : (p.set rb ra).length = p.length := List.length_set p rb ra
  have hf3 : ∀ y, parentGet (p.set rb ra) y = if y = rb then ra else parentGet p y :=
    fun y => parentGet_set _ _ hrbn
  constructor
  · intro j hj
    rw [hlen] at hj
    rw [hf3, hlen]
    split
    · exact hran
    · exact hp.1 _ hj
  · intro x
    refine ⟨2 * (p.set rb ra).length, ?_⟩
    rw [show (parentGet (p.set rb ra))^[2 * (p.set rb ra).length] x =
      rootF (p.set rb ra) x from rfl]
    rw [link_root hp hra hrb hne hrbn x]
    by_cases hcase : rootF p x = rb
    · rw [if_pos hcase]
      unfold isRoot
      rw [hf3, if_neg hne]
      exact hra
    · rw [if_neg hcase]
      unfold isRoot
      rw [hf3, if_neg hcase]
      exact rootF_isRoot hp x

/-- Linking merges exactly the two classes. -/
theorem link_equiv {p : List ℕ} (hp : UFInv p) {ra rb : ℕ}
    (hra : isRoot p ra) (hrb : isRoot p rb) (hne : ra ≠ rb) (hrbn : rb < p.length) :
    ∀ x y, rootF (p.set rb ra) x = rootF (p.set rb ra) y ↔
      (rootF p x = rootF p y ∨ (rootF p x = ra ∧ rootF p y = rb) ∨
        (rootF p x = rb ∧ rootF p y = ra)) := by
  intro x y
  rw [link_root hp hra hrb hne hrbn x, link_root hp hra hrb hne hrbn y]
  by_cases hx : rootF p x = rb
  · by_cases hy : rootF p y = rb
    · rw [if_pos hx, if_pos hy]
      constructor
      · intro _
        exact Or.inl (hx.trans hy.symm)
      · intro _
        rfl
    · rw [if_pos hx, if_neg hy]
      constructor
      · intro h
        exact Or.inr (Or.inr ⟨hx, h.symm⟩)
      · rintro (h | ⟨h1, h2⟩ | ⟨h1, h2⟩)
        · exact absurd (h ▸ hx) hy
        · exact absurd h2 hy
        · exact h2.symm
  · by_cases hy : rootF p y = rb
    · rw [if_neg hx, if_pos hy]
      constructor
      · intro h
        exact Or.inr (Or.inl ⟨h, hy⟩)
      · rintro (h | ⟨h1, h2⟩ | ⟨h1, h2⟩)
        · exact absurd (h.trans hy) hx
        · exact h1
        · exact absurd h1 hx
    · rw [if_neg hx, if_neg hy]
      constructor
      · exact Or.inl
      · rintro (h | ⟨h1, h2⟩ | ⟨h1, h2⟩)
        · exact h
        · exact absurd h2 hy
        · exact absurd h1 hx

/-- `_union` keeps length and invariant, and its root equivalence is the old
one joined at `{a, b}`. -/
theorem unionUF_spec (p r : List ℕ) (a b : ℕ) (hp : UFInv p)
    (ha : a < p.length) (hb : b < p.length) :
    (unionUF p r a b).1.length = p.length ∧
    UFInv (unionUF p r a b).1 ∧
    (∀ x y, rootF (unionUF p r a b).1 x = rootF (unionUF p r a b).1 y ↔
      (rootF p x = rootF p y ∨
       (rootF p x = rootF p a ∧ rootF p y = rootF p b) ∨
       (rootF p x = rootF p b ∧ rootF p y = rootF p a))) := by
  obtain ⟨hra_eq, hlen1, hp1, hpres1⟩ :=
    findRoot_spec p.length p a hp (fix_within hp a)
  obtain ⟨hrb_eq, hlen2, hp2, hpres2⟩ :=
    findRoot_spec (findRoot p.length p a).1.length (findRoot p.length p a).1 b hp1
      (fix_within hp1 b)
  have hrb_eq2 : (findRoot (findRoot p.length p a).1.length (findRoot p.length p a).1 b).2
      = rootF p b := by
    rw [hrb_eq, hpres1 b]
  have hpres : ∀ x, rootF (findRoot (findRoot p.length p a).1.length
      (findRoot p.length p a).1 b).1 x = rootF p x :=
    fun x => (hpres2 x).trans (hpres1 x)
  have hlen : (findRoot (findRoot p.length p a).1.length (findRoot p.length p a).1 b).1.length
      = p.length := hlen2.trans hlen1
  have hisa : isRoot (findRoot (findRoot p.length p a).1.length
      (findRoot p.length p a).1 b).1 (rootF p a) := by
    have h1 : rootF p a = rootF (findRoot (findRoot p.length p a).1.length
        (findRoot p.length p a).1 b).1 (rootF p a) := by
      rw [hpres (rootF p a), rootF_rootF hp a]
    rw [h1]
    exact rootF_isRoot hp2 _
  have hisb : isRoot (findRoot (findRoot p.length p a).1.length
      (findRoot p.length p a).1 b).1 (rootF p b) := by
    have h1 : rootF p b = rootF (findRoot (findRoot p.length p a).1.length
        (findRoot p.length p a).1 b).1 (rootF p b) := by
      rw [hpres (rootF p b), rootF_rootF hp b]
    rw [h1]
    exact rootF_isRoot hp2 _
  have hran : rootF p a < p.length := rootF_lt hp ha
  have hrbn : rootF p b < p.length := rootF_lt hp hb
  unfold unionUF
  dsimp only
  rw [hra_eq, hrb_eq2]
  by_cases hrr : rootF p a = rootF p b
  · rw [if_pos hrr]
    dsimp only
    refine ⟨hlen, hp2, ?_⟩
    intro x y
    rw [hpres x, hpres y]
    constructor
    · exact Or.inl
    · rintro (h | ⟨h1, h2⟩ | ⟨h1, h2⟩)
      · exact h
      · exact h1.trans (hrr.trans h2.symm)
      · exact h1.trans (hrr.symm.trans h2.symm)
  · rw [if_neg hrr]
    by_cases hrank : r.getD (rootF p a) 0 < r.getD (rootF p b) 0
    · rw [if_pos hrank]
      dsimp only
      refine ⟨(List.length_set _ _ _).trans hlen, ?_, ?_⟩
      · exact link_inv hp2 hisb hisa (fun h => hrr h.symm)
          (by rw [hlen]; exact hrbn) (by rw [hlen]; exact hran)
      · intro x y
        refine Iff.trans (link_equiv hp2 hisb hisa (fun h => hrr h.symm)
          (by rw [hlen]; exact hran) x y) ?_
        rw [hpres x, hpres y]
        constructor
        · rintro (h | ⟨h1, h2⟩ | ⟨h1, h2⟩)
          · exact Or.inl h
          · exact Or.inr (Or.inr ⟨h1, h2⟩)
          · exact Or.inr (Or.inl ⟨h1, h2⟩)
        · rintro (h | ⟨h1, h2⟩ | ⟨h1, h2⟩)
          · exact Or.inl h
          · exact Or.inr (Or.inr ⟨h1, h2⟩)
          · exact Or.inr (Or.inl ⟨h1, h2⟩)
    · rw [if_neg hrank]
      dsimp only
      refine ⟨(List.length_set _ _ _).trans hlen, ?_, ?_⟩
      · exact link_inv hp2 hisa hisb hrr
          (by rw [hlen]; exact hran) (by rw [hlen]; exact hrbn)
      · intro x y
        refine Iff.trans (link_equiv hp2 hisa hisb hrr
          (by rw [hlen]; exact hrbn) x y) ?_
        rw [hpres x, hpres y]

theorem eqvGen_bot {x y : ℕ} : Relation.EqvGen (fun _ _ => False) x y ↔ x = y := by
  constructor
  · intro h
    induction h with
    | rel u v huv => exact absurd huv (fun h => h)
    | refl u => rfl
    | symm u v _ ih => exact ih.symm
    | trans u v w _ _ ih1 ih2 => exact ih1.trans ih2
  · rintro rfl
    exact Relation.EqvGen.refl x

theorem eqvGen_congr {R S : ℕ → ℕ → Prop} (h : ∀ u v, R u v ↔ S u v) {x y : ℕ} :
    Relation.EqvGen R x y ↔ Relation.EqvGen S x y :=
  ⟨Relation.EqvGen.mono (fun u v => (h u v).1),
   Relation.EqvGen.mono (fun u v => (h u v).2)⟩

theorem eqvGen_of_imp {R S : ℕ → ℕ → Prop} (h : ∀ u v, S u v → Relation.EqvGen R u v)
    {x y : ℕ} (hxy : Relation.EqvGen S x y) : Relation.EqvGen R x y := by
  induction hxy with
  | rel u v huv => exact h u v huv
  | refl u => exact Relation.EqvGen.refl u
  | symm u v _ ih => exact Relation.EqvGen.symm _ _ ih
  | trans u v w _ _ ih1 ih2 => exact Relation.EqvGen.trans _ _ _ ih1 ih2

/-- Adjoining the single pair `(a, b)` to a relation joins exactly the
classes of `a` and `b` in the generated equivalence. -/
theorem eqvGen_join {R : ℕ → ℕ → Prop} {a b : ℕ} {x y : ℕ} :
    Relation.EqvGen (fun u v => R u v ∨ (u = a ∧ v = b)) x y ↔
      (Relation.EqvGen R x y ∨
        (Relation.EqvGen R x a ∧ Relation.EqvGen R b y) ∨
        (Relation.EqvGen R x b ∧ Relation.EqvGen R a y)) := by
  constructor
  · intro h
    induction h with
    | rel u v huv =>
      rcases huv with h | ⟨rfl, rfl⟩
      · exact Or.inl (Relation.EqvGen.rel _ _ h)
      · exact Or.inr (Or.inl ⟨Relation.EqvGen.refl _, Relation.EqvGen.refl _⟩)
    | refl u => exact Or.inl (Relation.EqvGen.refl u)
    | symm u v _ ih =>
      rcases ih with h | ⟨h1, h2⟩ | ⟨h1, h2⟩
      · exact Or.inl (Relation.EqvGen.symm _ _ h)
      · exact Or.inr (Or.inr ⟨Relation.EqvGen.symm _ _ h2, Relation.EqvGen.symm _ _ h1⟩)
      · exact Or.inr (Or.inl ⟨Relation.EqvGen.symm _ _ h2, Relation.EqvGen.symm _ _ h1⟩)
    | trans u v w _ _ ih1 ih2 =>
      rcases ih1 with h1 | ⟨h1, h1x⟩ | ⟨h1, h1x⟩
      · rcases ih2 with h2 | ⟨h2, h2x⟩ | ⟨h2, h2x⟩
        · exact Or.inl (Relation.EqvGen.trans _ _ _ h1 h2)
        · exact Or.inr (Or.inl ⟨Relation.EqvGen.trans _ _ _ h1 h2, h2x⟩)
        · exact Or.inr (Or.inr ⟨Relation.EqvGen.trans _ _ _ h1 h2, h2x⟩)
      · rcases ih2 with h2 | ⟨h2, h2x⟩ | ⟨h2, h2x⟩
        · exact Or.inr (Or.inl ⟨h1, Relation.EqvGen.trans _ _ _ h1x h2⟩)
        · exact Or.inr (Or.inl ⟨h1, h2x⟩)
        · exact Or.inl (Relation.EqvGen.trans _ _ _ h1 h2x)
      · rcases ih2 with h2 | ⟨h2, h2x⟩ | ⟨h2, h2x⟩
        · exact Or.inr (Or.inr ⟨h1, Relation.EqvGen.trans _ _ _ h1x h2⟩)
        · exact Or.inl (Relation.EqvGen.trans _ _ _ h1 h2x)
        · exact Or.inr (Or.inr ⟨h1, h2x⟩)
  · have hab : Relation.EqvGen (fun u v => R u v ∨ (u = a ∧ v = b)) a b :=
      Relation.EqvGen.rel _ _ (Or.inr ⟨rfl, rfl⟩)
    rintro (h | ⟨h1, h2⟩ | ⟨h1, h2⟩)
    · exact Relation.EqvGen.mono (fun u v hr => Or.inl hr) h
    · exact Relation.EqvGen.trans _ _ _
        (Relation.EqvGen.trans _ _ _
          (Relation.EqvGen.mono (fun u v hr => Or.inl hr) h1) hab)
        (Relation.EqvGen.mono (fun u v hr => Or.inl hr) h2)
    · exact Relation.EqvGen.trans _ _ _
        (Relation.EqvGen.trans _ _ _
          (Relation.EqvGen.mono (fun u v hr => Or.inl hr) h1)
          (Relation.EqvGen.symm _ _ hab))
        (Relation.EqvGen.mono (fun u v hr => Or.inl hr) h2)

theorem mem_allPairs {n u v : ℕ} : (u, v) ∈ allPairs n ↔ u < v ∧ v < n := by
  unfold allPairs
  rw [List.mem_flatMap]
  constructor
  · rintro ⟨i, hi, hmem⟩
    rcases List.mem_map.mp hmem with ⟨j, hj, hpair⟩
    cases hpair
    rcases mem_range_drop.mp hj with ⟨h1, h2⟩
    exact ⟨by omega, h2⟩
  · rintro ⟨huv, hvn⟩
    exact ⟨u, List.mem_range.mpr (lt_trans huv hvn),
      List.mem_map.mpr ⟨v, mem_range_drop.mpr ⟨huv, hvn⟩, rfl⟩⟩

/-- The pair sweep: length and invariant are maintained, and the final root
equivalence is generated by the base relation plus all processed similar
pairs. -/
theorem foldUF_spec (items : List SaaSIdeaItem) (thr : ℚ) :
    ∀ (ps : List (ℕ × ℕ)) (pr : List ℕ × List ℕ) (R0 : ℕ → ℕ → Prop),
    pr.1.length = items.length → UFInv pr.1 →
    (∀ x y, rootF pr.1 x = rootF pr.1 y ↔ Relation.EqvGen R0 x y) →
    (∀ q ∈ ps, q.1 < items.length ∧ q.2 < items.length) →
    (ps.foldl (ufStep items thr) pr).1.length = items.length ∧
    UFInv (ps.foldl (ufStep items thr) pr).1 ∧
    (∀ x y, rootF (ps.foldl (ufStep items thr) pr).1 x =
        rootF (ps.foldl (ufStep items thr) pr).1 y ↔
      Relation.EqvGen (fun u v => R0 u v ∨ ((u, v) ∈ ps ∧
        thr ≤ jaccardSimilarity (summaryNgramsAt items u) (summaryNgramsAt items v))) x y) := by
  intro ps
  induction ps with
  | nil =>
    intro pr R0 hlen hinv hchar _
    simp only [List.foldl_nil]
    refine ⟨hlen, hinv, ?_⟩
    intro x y
    rw [hchar x y]
    exact eqvGen_congr (by intro u v; simp)
  | cons q rest ih =>
    intro pr R0 hlen hinv hchar hbounds
    rw [List.foldl_cons]
    have hq := hbounds q (List.mem_cons_self q rest)
    by_cases hsim : thr ≤ jaccardSimilarity (summaryNgramsAt items q.1) (summaryNgramsAt items q.2)
    · have hstep : ufStep items thr pr q = unionUF pr.1 pr.2 q.1 q.2 := by
        unfold ufStep
        rw [if_pos hsim]
      rw [hstep]
      obtain ⟨hl2, hi2, hc2⟩ := unionUF_spec pr.1 pr.2 q.1 q.2 hinv
        (by rw [hlen]; exact hq.1) (by rw [hlen]; exact hq.2)
      have hchar2 : ∀ x y, rootF (unionUF pr.1 pr.2 q.1 q.2).1 x =
          rootF (unionUF pr.1 pr.2 q.1 q.2).1 y ↔
          Relation.EqvGen (fun u v => R0 u v ∨ (u = q.1 ∧ v = q.2)) x y := by
        intro x y
        rw [hc2 x y, eqvGen_join]
        rw [hchar x y, hchar x q.1, hchar x q.2]
        constructor
        · rintro (h | ⟨h1, h2⟩ | ⟨h1, h2⟩)
          · exact Or.inl h
          · exact Or.inr (Or.inl ⟨h1, Relation.EqvGen.symm _ _ ((hchar y q.2).mp h2)⟩)
          · exact Or.inr (Or.inr ⟨h1, Relation.EqvGen.symm _ _ ((hchar y q.1).mp h2)⟩)
        · rintro (h | ⟨h1, h2⟩ | ⟨h1, h2⟩)
          · exact Or.inl h
          · exact Or.inr (Or.inl ⟨h1, (hchar y q.2).mpr (Relation.EqvGen.symm _ _ h2)⟩)
          · exact Or.inr (Or.inr ⟨h1, (hchar y q.1).mpr (Relation.EqvGen.symm _ _ h2)⟩)
      obtain ⟨hl3, hi3, hc3⟩ := ih (unionUF pr.1 pr.2 q.1 q.2)
        (fun u v => R0 u v ∨ (u = q.1 ∧ v = q.2))
        (by rw [hl2, hlen]) hi2 hchar2
        (fun q2 hq2 => hbounds q2 (List.mem_cons_of_mem q hq2))
      refine ⟨hl3, hi3, ?_⟩
      intro x y
      rw [hc3 x y]
      apply eqvGen_congr
      intro u v
      constructor
      · rintro ((h | ⟨rfl, rfl⟩) | ⟨hmem, hs⟩)
        · exact Or.inl h
        · exact Or.inr ⟨by simp, hsim⟩
        · exact Or.inr ⟨List.mem_cons_of_mem q hmem, hs⟩
      · rintro (h | ⟨hmem, hs⟩)
        · exact Or.inl (Or.inl h)
        · rcases List.mem_cons.mp hmem with heq | hmem2
          · left
            right
            rw [Prod.ext_iff] at heq
            exact ⟨heq.1, heq.2⟩
          · exact Or.inr ⟨hmem2, hs⟩
    · have hstep : ufStep items thr pr q = pr := by
        unfold ufStep
        rw [if_neg hsim]
      rw [hstep]
      obtain ⟨hl3, hi3, hc3⟩ := ih pr R0 hlen hinv hchar
        (fun q2 hq2 => hbounds q2 (List.mem_cons_of_mem q hq2))
      refine ⟨hl3, hi3, ?_⟩
      intro x y
      rw [hc3 x y]
      apply eqvGen_congr
      intro u v
      constructor
      · rintro (h | ⟨hmem, hs⟩)
        · exact Or.inl h
        · exact Or.inr ⟨List.mem_cons_of_mem q hmem, hs⟩
      · rintro (h | ⟨hmem, hs⟩)
        · exact Or.inl h
        · rcases List.mem_cons.mp hmem with heq | hmem2
          · exfalso
            apply hsim
            rw [Prod.ext_iff] at heq
            rw [← heq.1, ← heq.2] at hsim ⊢
            exact hs
          · exact Or.inr ⟨hmem2, hs⟩

/-- The initial union-find state: every index is its own root. -/
theorem init_uf_spec (n : ℕ) :
    (List.range n).length = n ∧ UFInv (List.range n) ∧
    (∀ x, rootF (List.range n) x = x) := by
  have hid : ∀ x, parentGet (List.range n) x = x := by
    intro x
    by_cases hx : x < n
    · unfold parentGet
      rw [List.getD_eq_getElem _ _ (by simpa using hx), List.getElem_range]
    · exact parentGet_of_ge (by simpa using Nat.le_of_not_lt hx)
  refine ⟨List.length_range n, ⟨?_, ?_⟩, ?_⟩
  · intro i hi
    rw [hid]
    exact hi
  · intro x
    exact ⟨0, hid x⟩
  · intro x
    unfold rootF
    induction (2 * (List.range n).length) with
    | zero => rfl
    | succ k ihk =>
      rw [Function.iterate_succ_apply', ihk, hid]

/-- The grouping sweep: its cluster accumulator is the pure fold over the
(unchanging) root map, whatever compression the embedded finds perform. -/
theorem sweep_spec {pF : List ℕ} :
    ∀ (l : List ℕ) (p : List ℕ) (cl : List (ℕ × List ℕ)),
    UFInv p → (∀ x, rootF p x = rootF pF x) →
    (l.foldl (fun (acc : List ℕ × List (ℕ × List ℕ)) i =>
        ((findRoot acc.1.length acc.1 i).1,
          addToClusters acc.2 (findRoot acc.1.length acc.1 i).2 i)) (p, cl)).2 =
      l.foldl (fun cl2 i => addToClusters cl2 (rootF pF i) i) cl := by
  intro l
  induction l with
  | nil => intro p cl _ _; rfl
  | cons i rest ih =>
    intro p cl hinv hpres
    rw [List.foldl_cons, List.foldl_cons]
    obtain ⟨hr, hl, hi, hp⟩ := findRoot_spec p.length p i hinv (fix_within hinv i)
    have hr2 : (findRoot p.length p i).2 = rootF pF i := by
      rw [hr, hpres]
    dsimp only
    rw [hr2]
    exact ih (findRoot p.length p i).1 _ hi (fun x => (hp x).trans (hpres x))

/-- `clusters[root].append(i)` keeps the books: members stay the filters of
the processed prefix, and the key list grows only by a fresh key. -/
theorem addToClusters_correct (f : ℕ → ℕ) (i : ℕ) :
    ∀ (cl : List (ℕ × List ℕ)) (pre : List ℕ),
    (∀ e ∈ cl, e.2 = pre.filter (fun x => f x = e.1)) →
    ((cl.map Prod.fst).Nodup) →
    (f i ∉ cl.map Prod.fst → pre.filter (fun x => f x = f i) = []) →
    (∀ e ∈ addToClusters cl (f i) i, e.2 = (pre ++ [i]).filter (fun x => f x = e.1)) ∧
    ((addToClusters cl (f i) i).map Prod.fst =
      if f i ∈ cl.map Prod.fst then cl.map Prod.fst else cl.map Prod.fst ++ [f i]) := by
  intro cl
  induction cl with
  | nil =>
    intro pre hG1 hG2 hH
    simp only [addToClusters]
    constructor
    · intro e he
      rcases List.mem_singleton.mp he with rfl
      rw [List.filter_append, hH (by simp)]
      simp
    · simp
  | cons hd tl ih =>
    obtain ⟨r, ms⟩ := hd
    intro pre hG1 hG2 hH
    simp only [addToClusters]
    by_cases hkey : r = f i
    · rw [if_pos hkey]
      constructor
      · intro e he
        rcases List.mem_cons.mp he with rfl | he2
        · rw [List.filter_append]
          have hms := hG1 (r, ms) (List.mem_cons_self _ _)
          simp only at hms
          rw [← hms]
          simp [hkey.symm]
        · have he3 := hG1 e (List.mem_cons_of_mem _ he2)
          rw [List.filter_append, he3]
          have hne : f i ≠ e.1 := by
            intro hcontra
            have hkeys : (List.map Prod.fst ((r, ms) :: tl)).Nodup := hG2
            simp only [List.map_cons, List.nodup_cons] at hkeys
            apply hkeys.1
            rw [hkey, hcontra]
            exact List.mem_map.mpr ⟨e, he2, rfl⟩
          simp [hne]
      · have hmem : f i ∈ List.map Prod.fst ((r, ms) :: tl) := by
          simp [hkey.symm]
        rw [if_pos hmem]
        simp
    · rw [if_neg hkey]
      have hkeys : (List.map Prod.fst ((r, ms) :: tl)).Nodup := hG2
      simp only [List.map_cons, List.nodup_cons] at hkeys
      have hH2 : f i ∉ tl.map Prod.fst → pre.filter (fun x => f x = f i) = [] := by
        intro hno
        apply hH
        simp only [List.map_cons, List.mem_cons]
        rintro (h | h)
        · exact hkey h.symm
        · exact hno h
      obtain ⟨ih1, ih2⟩ := ih pre (fun e he => hG1 e (List.mem_cons_of_mem _ he)) hkeys.2 hH2
      constructor
      · intro e he
        rcases List.mem_cons.mp he with rfl | he2
        · have hms := hG1 (r, ms) (List.mem_cons_self _ _)
          simp only at hms
          rw [List.filter_append, ← hms]
          have hne : f i ≠ r := fun h => hkey h.symm
          simp [hne]
        · exact ih1 e he2
      · simp only [List.map_cons, ih2]
        by_cases hmem : f i ∈ tl.map Prod.fst
        · rw [if_pos hmem, if_pos (by simp [hmem])]
        · rw [if_neg hmem]
          rw [if_neg (by
            simp only [List.map_cons, List.mem_cons]
            rintro (h | h)
            · exact hkey h.symm
            · exact hmem h)]
          simp

/-- The whole grouping fold: members are exactly the filters of the
processed list, keys are distinct, and every processed index is covered. -/
theorem buildClusters_spec (f : ℕ → ℕ) :
    ∀ (l : List ℕ) (cl : List (ℕ × List ℕ)) (pre : List ℕ),
    (∀ e ∈ cl, e.2 = pre.filter (fun x => f x = e.1)) →
    ((cl.map Prod.fst).Nodup) →
    (∀ x ∈ pre, f x ∈ cl.map Prod.fst) →
    (∀ e ∈ l.foldl (fun cl2 i => addToClusters cl2 (f i) i) cl,
      e.2 = (pre ++ l).filter (fun x => f x = e.1)) ∧
    (((l.foldl (fun cl2 i => addToClusters cl2 (f i) i) cl).map Prod.fst).Nodup) ∧
    (∀ x ∈ pre ++ l, f x ∈
      (l.foldl (fun cl2 i => addToClusters cl2 (f i) i) cl).map Prod.fst) := by
  intro l
  induction l with
  | nil =>
    intro cl pre hG1 hG2 hG3
    rw [List.foldl_nil, List.append_nil]
    exact ⟨hG1, hG2, hG3⟩
  | cons i rest ih =>
    intro cl pre hG1 hG2 hG3
    rw [List.foldl_cons]
    have hH : f i ∉ cl.map Prod.fst → pre.filter (fun x => f x = f i) = [] := by
      intro hno
      rw [List.filter_eq_nil_iff]
      intro a ha hfa
      apply hno
      rw [decide_eq_true_eq] at hfa
      rw [← hfa]
      exact hG3 a ha
    obtain ⟨hA1, hA2⟩ := addToClusters_correct f i cl pre hG1 hG2 hH
    have hG2p : ((addToClusters cl (f i) i).map Prod.fst).Nodup := by
      rw [hA2]
      by_cases hmem : f i ∈ cl.map Prod.fst
      · rw [if_pos hmem]
        exact hG2
      · rw [if_neg hmem]
        rw [List.nodup_append]
        exact ⟨hG2, List.nodup_singleton _, by
          intro a ha hb
          rcases List.mem_singleton.mp hb with rfl
          exact hmem ha⟩
    have hG3p : ∀ x ∈ pre ++ [i], f x ∈ (addToClusters cl (f i) i).map Prod.fst := by
      intro x hx
      rw [hA2]
      rcases List.mem_append.mp hx with hx2 | hx2
      · by_cases hmem : f i ∈ cl.map Prod.fst
        · rw [if_pos hmem]
          exact hG3 x hx2
        · rw [if_neg hmem]
          exact List.mem_append.mpr (Or.inl (hG3 x hx2))
      · rcases List.mem_singleton.mp hx2 with rfl
        by_cases hmem : f x ∈ cl.map Prod.fst
        · rw [if_pos hmem]
          exact hmem
        · rw [if_neg hmem]
          exact List.mem_append.mpr (Or.inr (by simp))
    obtain ⟨hB1, hB2, hB3⟩ := ih (addToClusters cl (f i) i) (pre ++ [i]) hA1 hG2p hG3p
    refine ⟨?_, hB2, ?_⟩
    · intro e he
      have := hB1 e he
      rwa [List.append_assoc, List.singleton_append] at this
    · intro x hx
      apply hB3
      rw [List.append_assoc, List.singleton_append]
      exact hx

theorem summaryNgramsAt_lt {items : List SaaSIdeaItem} {u : ℕ} (hu : u < items.length) :
    summaryNgramsAt items u = getNgrams (items.getD u defaultItem).idea_summary 3 := by
  unfold summaryNgramsAt
  rw [List.getD_eq_getElem _ _ (by simpa using hu), List.getElem_map,
    List.getD_eq_getElem _ _ hu]

/-- The final union-find state: right length, invariant, and root equality
generated by the processed similar pairs. -/
theorem ufParent_spec (items : List SaaSIdeaItem) (thr : ℚ) :
    (ufParent items thr).length = items.length ∧ UFInv (ufParent items thr) ∧
    (∀ x y, rootAt items thr x = rootAt items thr y ↔
      Relation.EqvGen (fun u v => (u, v) ∈ allPairs items.length ∧
        thr ≤ jaccardSimilarity (summaryNgramsAt items u) (summaryNgramsAt items v)) x y) := by
  obtain ⟨hlen, hinv, hroot⟩ := init_uf_spec items.length
  obtain ⟨h1, h2, h3⟩ := foldUF_spec items thr (allPairs items.length)
    (List.range items.length, List.replicate items.length 0) (fun _ _ => False)
    hlen hinv
    (by
      intro x y
      dsimp only
      rw [hroot x, hroot y, eqvGen_bot])
    (by
      rintro ⟨u, v⟩ hq
      obtain ⟨hu, hv⟩ := mem_allPairs.mp hq
      exact ⟨lt_trans hu hv, hv⟩)
  refine ⟨h1, h2, ?_⟩
  intro x y
  unfold rootAt ufParent
  rw [h3 x y]
  exact eqvGen_congr (by intro u v; simp)

/-- Root equality in the final union-find state is exactly connectivity in
the reflexive-symmetric-transitive closure of the similarity relation. -/
theorem rootAt_iff_eqvGen (items : List SaaSIdeaItem) (thr : ℚ) (x y : ℕ) :
    rootAt items thr x = rootAt items thr y ↔
      Relation.EqvGen (simRel items thr) x y := by
  rw [(ufParent_spec items thr).2.2 x y]
  constructor
  · intro hxy
    refine eqvGen_of_imp ?_ hxy
    rintro u v ⟨hm, hs⟩
    obtain ⟨huv, hvn⟩ := mem_allPairs.mp hm
    apply Relation.EqvGen.rel
    refine ⟨by omega, by omega, hvn, ?_⟩
    rwa [summaryNgramsAt_lt (show u < items.length by omega),
      summaryNgramsAt_lt hvn] at hs
  · intro hxy
    refine eqvGen_of_imp ?_ hxy
    rintro u v ⟨hne, hun, hvn, hs⟩
    rcases Nat.lt_or_ge u v with h | h
    · apply Relation.EqvGen.rel
      refine ⟨mem_allPairs.mpr ⟨h, hvn⟩, ?_⟩
      rwa [summaryNgramsAt_lt hun, summaryNgramsAt_lt hvn]
    · have hvu : v < u := by omega
      apply Relation.EqvGen.symm
      apply Relation.EqvGen.rel
      refine ⟨mem_allPairs.mpr ⟨hvu, hun⟩, ?_⟩
      rw [summaryNgramsAt_lt hvn, summaryNgramsAt_lt hun, jaccardSimilarity_comm]
      exact hs

/-- The cluster list: every entry's members are exactly the indices with
that root, the keys are distinct, and every index's root appears. -/
theorem theClusters_spec (items : List SaaSIdeaItem) (thr : ℚ) :
    (∀ e ∈ theClusters items thr,
      e.2 = (List.range items.length).filter
        (fun x => rootAt items thr x = e.1)) ∧
    ((theClusters items thr).map Prod.fst).Nodup ∧
    (∀ x ∈ List.range items.length,
      rootAt items thr x ∈ (theClusters items thr).map Prod.fst) := by
  obtain ⟨h1, h2, h3⟩ := buildClusters_spec (rootAt items thr)
    (List.range items.length) [] []
    (by intro e he; cases he)
    (by simp)
    (by intro x hx; cases hx)
  refine ⟨fun e he => ?_, h2, fun x hx => ?_⟩
  · have := h1 e he
    rwa [List.nil_append] at this
  · exact h3 x (by rw [List.nil_append]; exact hx)

theorem getD_set_self {l : List SaaSIdeaItem} {i : ℕ} (v : SaaSIdeaItem)
    (hi : i < l.length) : (l.set i v).getD i defaultItem = v := by
  rw [List.getD_eq_getElem?_getD, List.getElem?_set_self hi]
  rfl

theorem getD_set_ne {l : List SaaSIdeaItem} {i k : ℕ} (v : SaaSIdeaItem)
    (h : i ≠ k) : (l.set i v).getD k defaultItem = l.getD k defaultItem := by
  rw [List.getD_eq_getElem?_getD, List.getElem?_set_ne h,
    ← List.getD_eq_getElem?_getD]

/-- The inner assignment loop: length preserved, untouched indices
unchanged, each member updated from its original value. -/
theorem innerAssign_spec (c m : ℕ) :
    ∀ (ms : List ℕ) (its : List SaaSIdeaItem),
    (ms.foldl (fun its2 idx => its2.set idx
        { its2.getD idx defaultItem with
          cluster_id := (c : ℤ), market_signal := (m : ℤ) }) its).length = its.length ∧
    (∀ k, k ∉ ms →
      (ms.foldl (fun its2 idx => its2.set idx
          { its2.getD idx defaultItem with
            cluster_id := (c : ℤ), market_signal := (m : ℤ) }) its).getD k defaultItem
        = its.getD k defaultItem) ∧
    (∀ k, k ∈ ms → ms.Nodup → k < its.length →
      (ms.foldl (fun its2 idx => its2.set idx
          { its2.getD idx defaultItem with
            cluster_id := (c : ℤ), market_signal := (m : ℤ) }) its).getD k defaultItem
        = { its.getD k defaultItem with
            cluster_id := (c : ℤ), market_signal := (m : ℤ) }) := by
  intro ms
  induction ms with
  | nil =>
    intro its
    exact ⟨rfl, fun k _ => rfl, fun k hk => absurd hk (List.not_mem_nil k)⟩
  | cons idx rest ih =>
    intro its
    obtain ⟨ihlen, ihnot, ihmem⟩ := ih (its.set idx
      { its.getD idx defaultItem with cluster_id := (c : ℤ), market_signal := (m : ℤ) })
    refine ⟨?_, ?_, ?_⟩
    · simp only [List.foldl_cons]
      exact ihlen.trans (List.length_set ..)
    · intro k hk
      have hki : k ≠ idx := fun h => hk (h ▸ List.mem_cons_self idx rest)
      have hkr : k ∉ rest := fun h => hk (List.mem_cons_of_mem idx h)
      simp only [List.foldl_cons]
      rw [ihnot k hkr, getD_set_ne _ (Ne.symm hki)]
    · intro k hk hnd hklen
      have hnd1 : idx ∉ rest := (List.nodup_cons.mp hnd).1
      have hnd2 : rest.Nodup := (List.nodup_cons.mp hnd).2
      simp only [List.foldl_cons]
      rcases List.mem_cons.mp hk with rfl | hkr
      · rw [ihnot k hnd1]
        exact getD_set_self _ hklen
      · have hki : k ≠ idx := fun h => hnd1 (h ▸ hkr)
        rw [ihmem k hkr hnd2 (by rw [List.length_set]; exact hklen),
          getD_set_ne _ (Ne.symm hki)]

/-- The outer assignment fold over the enumerated cluster list: length
preserved, untouched indices unchanged, and an index belonging to the entry
at position `c` gets cluster id `off + c` and the entry's market signal. -/
theorem outerAssign_spec :
    ∀ (cls : List (ℕ × List ℕ)) (off : ℕ) (its : List SaaSIdeaItem),
    ((List.enumFrom off cls).foldl assignStep its).length = its.length ∧
    (∀ k, (∀ e ∈ cls, k ∉ e.2) →
      ((List.enumFrom off cls).foldl assignStep its).getD k defaultItem =
        its.getD k defaultItem) ∧
    (∀ (c : ℕ) (hc : c < cls.length) (k : ℕ),
      (∀ e ∈ cls, e.2.Nodup) →
      cls.Pairwise (fun e1 e2 => ∀ x, x ∈ e1.2 → x ∉ e2.2) →
      k ∈ (cls.get ⟨c, hc⟩).2 → k < its.length →
      ((List.enumFrom off cls).foldl assignStep its).getD k defaultItem =
        { its.getD k defaultItem with
          cluster_id := ((off + c : ℕ) : ℤ),
          market_signal := ((min ((cls.get ⟨c, hc⟩).2.length * 25) 100 : ℕ) : ℤ) }) := by
  intro cls
  induction cls with
  | nil =>
    intro off its
    refine ⟨rfl, fun k _ => rfl, ?_⟩
    intro c hc
    exact absurd hc (Nat.not_lt_zero c)
  | cons hd tl ih =>
    intro off its
    have henum : List.enumFrom off (hd :: tl) = (off, hd) :: List.enumFrom (off + 1) tl :=
      List.enumFrom_cons ..
    obtain ⟨ilen, inot, imem⟩ := innerAssign_spec off (min (hd.2.length * 25) 100) hd.2 its
    have hstep : assignStep its (off, hd) =
        hd.2.foldl (fun its2 idx => its2.set idx
          { its2.getD idx defaultItem with
            cluster_id := ((off : ℕ) : ℤ),
            market_signal := ((min (hd.2.length * 25) 100 : ℕ) : ℤ) }) its := rfl
    obtain ⟨tlen, tnot, tmem⟩ := ih (off + 1) (assignStep its (off, hd))
    refine ⟨?_, ?_, ?_⟩
    · rw [henum, List.foldl_cons, tlen, hstep, ilen]
    · intro k hk
      have hkhd : k ∉ hd.2 := hk hd (List.mem_cons_self hd tl)
      have hktl : ∀ e ∈ tl, k ∉ e.2 := fun e he => hk e (List.mem_cons_of_mem hd he)
      rw [henum, List.foldl_cons, tnot k hktl, hstep, inot k hkhd]
    · intro c hc k hnodup hpair hkmem hklen
      obtain ⟨hpd, hptl⟩ := List.pairwise_cons.mp hpair
      rw [henum, List.foldl_cons]
      cases c with
      | zero =>
        have hkhd : k ∈ hd.2 := hkmem
        have hktl : ∀ e ∈ tl, k ∉ e.2 := fun e he => hpd e he k hkhd
        rw [tnot k hktl, hstep,
          imem k hkhd (hnodup hd (List.mem_cons_self hd tl)) hklen]
        rfl
      | succ c2 =>
        have hc2 : c2 < tl.length := by simpa using hc
        have hkmem2 : k ∈ (tl.get ⟨c2, hc2⟩).2 := hkmem
        have hkhd : k ∉ hd.2 := by
          intro hcontra
          exact hpd (tl.get ⟨c2, hc2⟩) (List.get_mem tl c2 hc2) k hcontra hkmem2
        rw [tmem c2 hc2 k (fun e he => hnodup e (List.mem_cons_of_mem hd he)) hptl
          hkmem2 (by rw [hstep, ilen]; exact hklen), hstep, inot k hkhd]
        have harith : off + 1 + c2 = off + (c2 + 1) := by omega
        rw [harith]
        rfl

/-- `cluster_ideas` on more than one item is the assignment fold over the
enumerated cluster list (the in-fold path compression eliminated by
`sweep_spec`). -/
theorem clusterIdeas_eq (items : List SaaSIdeaItem) (thr : ℚ)
    (h : ¬ items.length ≤ 1) :
    clusterIdeas items thr =
      (List.enumFrom 0 (theClusters items thr)).foldl assignStep items := by
  have hP := ufParent_spec items thr
  have hsweep := @sweep_spec (ufParent items thr) (List.range items.length)
    (ufParent items thr) [] hP.2.1 (fun x => rfl)
  have hmain : clusterIdeas items thr =
      (List.enumFrom 0 (((List.range items.length).foldl
        (fun (acc : List ℕ × List (ℕ × List ℕ)) i =>
          ((findRoot acc.1.length acc.1 i).1,
            addToClusters acc.2 (findRoot acc.1.length acc.1 i).2 i))
        (ufParent items thr, []))).2).foldl assignStep items := by
    unfold clusterIdeas
    rw [if_neg h]
    rfl
  rw [hmain, hsweep]
  rfl

theorem clusterIdeas_length (items : List SaaSIdeaItem) (thr : ℚ) :
    (clusterIdeas items thr).length = items.length := by
  by_cases h : items.length ≤ 1
  · unfold clusterIdeas
    rw [if_pos h, List.length_map]
  · rw [clusterIdeas_eq items thr h]
    exact (outerAssign_spec (theClusters items thr) 0 items).1

/-- Dense ids agree exactly when roots agree. -/
theorem clusterIdOf_eq_iff (items : List SaaSIdeaItem) (thr : ℚ) {i j : ℕ}
    (hi : i < items.length) (hj : j < items.length) :
    clusterIdOf items thr i = clusterIdOf items thr j ↔
      rootAt items thr i = rootAt items thr j := by
  obtain ⟨hfil, hnd, hcov⟩ := theClusters_spec items thr
  exact List.indexOf_inj (hcov i (List.mem_range.mpr hi))
    (hcov j (List.mem_range.mpr hj))

/-- Indexing into the output of `cluster_ideas` (more than one item): item
`k` keeps its fields except for the dense cluster id and the market signal
computed from its cluster's size. -/
theorem clusterIdeas_getD (items : List SaaSIdeaItem) (thr : ℚ)
    (h : ¬ items.length ≤ 1) {k : ℕ} (hk : k < items.length) :
    (clusterIdeas items thr).getD k defaultItem =
      { items.getD k defaultItem with
        cluster_id := (clusterIdOf items thr k : ℤ),
        market_signal := ((min (((List.range items.length).filter
          (fun x => rootAt items thr x = rootAt items thr k)).length * 25) 100 : ℕ) : ℤ) } := by
  obtain ⟨hfil, hnd, hcov⟩ := theClusters_spec items thr
  have hmem : rootAt items thr k ∈ (theClusters items thr).map Prod.fst :=
    hcov k (List.mem_range.mpr hk)
  have hidx : clusterIdOf items thr k < (theClusters items thr).length := by
    have := List.indexOf_lt_length.mpr hmem
    rwa [List.length_map] at this
  have hkey : ((theClusters items thr).get ⟨clusterIdOf items thr k, hidx⟩).1 =
      rootAt items thr k := by
    have h1 := List.getElem_indexOf (List.indexOf_lt_length.mpr hmem)
    rw [List.getElem_map] at h1
    exact h1
  have hmembers : ((theClusters items thr).get ⟨clusterIdOf items thr k, hidx⟩).2 =
      (List.range items.length).filter
        (fun x => rootAt items thr x = rootAt items thr k) := by
    have := hfil ((theClusters items thr).get ⟨clusterIdOf items thr k, hidx⟩)
      (List.get_mem ..)
    rw [this, hkey]
  have hkmem : k ∈ ((theClusters items thr).get ⟨clusterIdOf items thr k, hidx⟩).2 := by
    rw [hmembers, List.mem_filter]
    exact ⟨List.mem_range.mpr hk, by simp⟩
  have hnodupAll : ∀ e ∈ theClusters items thr, e.2.Nodup := by
    intro e he
    rw [hfil e he]
    exact (List.nodup_range _).filter _
  have hpair : (theClusters items thr).Pairwise
      (fun e1 e2 => ∀ x, x ∈ e1.2 → x ∉ e2.2) := by
    have hnd2 : (theClusters items thr).Pairwise (fun e1 e2 => e1.1 ≠ e2.1) :=
      List.pairwise_map.mp hnd
    refine hnd2.imp_of_mem ?_
    intro e1 e2 h1 h2 hne x hx1 hx2
    rw [hfil e1 h1] at hx1
    rw [hfil e2 h2] at hx2
    simp only [List.mem_filter, decide_eq_true_eq] at hx1 hx2
    exact hne (hx1.2 ▸ hx2.2 ▸ rfl)
  obtain ⟨olen, onot, omem⟩ := outerAssign_spec (theClusters items thr) 0 items
  rw [clusterIdeas_eq items thr h,
    omem (clusterIdOf items thr k) hidx k hnodupAll hpair hkmem hk,
    hmembers, Nat.zero_add]

/-- C6: clustering is transitive-closure correct.  For every input list and
threshold, two item indices receive the same `cluster_id` from
`cluster_ideas` if and only if they are connected in the reflexive-
symmetric-transitive closure of the relation "idea-summary n-gram
similarity at or above the threshold"; and each item's `market_signal`
equals `min(cluster size * 25, 100)`, the size being the number of indices
connected to it. -/
theorem c6_transitive_clusters (items : List SaaSIdeaItem) (thr : ℚ)
    (i j : ℕ) (hi : i < items.length) (hj : j < items.length) :
    (((clusterIdeas items thr).getD i defaultItem).cluster_id =
        ((clusterIdeas items thr).getD j defaultItem).cluster_id ↔
      Relation.EqvGen (simRel items thr) i j) ∧
    ((clusterIdeas items thr).getD i defaultItem).market_signal =
      ((min (((List.range items.length).filter
        (fun x => @decide (Relation.EqvGen (simRel items thr) x i)
          (Classical.propDecidable _))).length * 25) 100 : ℕ) : ℤ) := by
  have hfiltereq : ∀ k, (List.range items.length).filter
      (fun x => @decide (Relation.EqvGen (simRel items thr) x k)
        (Classical.propDecidable _)) =
      (List.range items.length).filter
        (fun x => rootAt items thr x = rootAt items thr k) := by
    intro k
    apply List.filter_congr
    intro x hx
    exact decide_eq_decide.mpr (rootAt_iff_eqvGen items thr x k).symm
  by_cases hlen : items.length ≤ 1
  · have hi0 : i = 0 := by omega
    have hj0 : j = 0 := by omega
    subst hi0
    subst hj0
    have hmap : clusterIdeas items thr =
        items.map (fun it => { it with market_signal := 25, cluster_id := 0 }) := by
      unfold clusterIdeas
      rw [if_pos hlen]
    have hn1 : items.length = 1 := by omega
    constructor
    · constructor
      · intro _
        exact Relation.EqvGen.refl 0
      · intro _
        rfl
    · have hget : (items.map
          (fun it => { it with market_signal := 25, cluster_id := 0 })).getD 0 defaultItem
          = { items.getD 0 defaultItem with market_signal := 25, cluster_id := 0 } := by
        rw [List.getD_eq_getElem _ _ (by rw [List.length_map]; omega),
          List.getElem_map, List.getD_eq_getElem _ _ (by omega)]
      rw [hmap, hfiltereq 0, hn1, hget]
      have hf1 : (List.range 1).filter
          (fun x => rootAt items thr x = rootAt items thr 0) = [0] := by
        have hr1 : List.range 1 = [0] := rfl
        rw [hr1]
        simp
      rw [hf1]
      rfl
  · constructor
    · rw [clusterIdeas_getD items thr hlen hi, clusterIdeas_getD items thr hlen hj]
      show ((clusterIdOf items thr i : ℤ) = (clusterIdOf items thr j : ℤ)) ↔ _
      rw [Nat.cast_inj, clusterIdOf_eq_iff items thr hi hj]
      exact rootAt_iff_eqvGen items thr i j
    · rw [clusterIdeas_getD items thr hlen hi, hfiltereq i]

theorem c6_witness :
    0 < exC.length ∧ 2 < exC.length ∧
    Relation.EqvGen (simRel exC (3/10)) 0 2 ∧
    (clusterIdeas exC (3/10)).map (fun it => (it.cluster_id, it.market_signal)) =
      [(0, 75), (0, 75), (0, 75)] :=
  ⟨by decide, by decide,
    ((c6_transitive_clusters exC (3/10) 0 2 (by decide) (by decide)).1).mp (by decide),
    by decide⟩

end SaasRadar

end
